import Mathlib

/-!
# tree-sitter-bash external scanner: verification development

Shallow embedding of `src/scanner.cc`.

* Characters are code points (`Nat`); the lexer's `lookahead` is `0` at end of
  input, exactly as the tree-sitter runtime reports it.
* `std::string` values are lists of bytes; appending the 32-bit `lookahead` to
  a string narrows it to a byte, written `% 256`.
* The `for (;;)` / `while` loops are recursive functions driven by a fuel
  counter; `scan` supplies `input.length + 1`, which is shown to be enough.
  Running out of fuel is `none`.
-/

namespace TreeSitterBash

/-! ## Character constants and `<cwctype>` classification ("C" locale) -/

def ch_nul : Nat := 0
def ch_tab : Nat := 9
def ch_newline : Nat := 10
def ch_space : Nat := 32
def ch_dollar : Nat := 36
def ch_amp : Nat := 38
def ch_lparen : Nat := 40
def ch_rparen : Nat := 41
def ch_semicolon : Nat := 59
def ch_lt : Nat := 60
def ch_eq : Nat := 61
def ch_gt : Nat := 62
def ch_lbracket : Nat := 91
def ch_backslash : Nat := 92
def ch_rbracket : Nat := 93
def ch_underscore : Nat := 95
def ch_backtick : Nat := 96
def ch_rbrace : Nat := 125

/-- The `iswalpha` of `<cwctype>` in the "C" locale: the 52 ASCII letters. -/
def iswalpha (c : Nat) : Bool :=
  (65 ≤ c && c ≤ 90) || (97 ≤ c && c ≤ 122)

/-- The `iswdigit` of `<cwctype>`: the ten decimal digits. -/
def iswdigit (c : Nat) : Bool :=
  48 ≤ c && c ≤ 57

/-- The `iswspace` of `<cwctype>` in the "C" locale: space, `\t`, `\n`, `\v`,
`\f`, `\r`. -/
def iswspace (c : Nat) : Bool :=
  c == 32 || (9 ≤ c && c ≤ 13)

/-! ## Token kinds, lexer and scanner state -/

/-- The `enum TokenType` of scanner.cc, in declaration order. -/
inductive TokenType where
  | SIMPLE_HEREDOC
  | HEREDOC_BEGINNING
  | HEREDOC_MIDDLE
  | HEREDOC_END
  | FILE_DESCRIPTOR
  | EMPTY_VALUE
  | CONCAT
  | VARIABLE_NAME
  | NEWLINE
  deriving DecidableEq, Repr, Fintype

open TokenType

/-- Modelled from the spec: the `TSLexer` cursor of `tree_sitter/parser.h`, which is
not part of the sources. `input` is the unread text (its head is the
lookahead), `position` counts the characters the cursor has passed,
`token_start` is where the token being built begins (a skipped character
moves it forward), and `result_symbol` is the recorded token kind. -/
structure TSLexer where
  input : List Nat
  position : Nat
  token_start : Nat
  result_symbol : TokenType
  deriving DecidableEq, Repr

/-- The character under the cursor, `0` at end of input. -/
def TSLexer.lookahead (lexer : TSLexer) : Nat :=
  lexer.input.headD 0

/-- Modelled from the spec: the `lexer->advance(lexer, skip)` callback of the
runtime. It moves the cursor one character forward; with `skip` the character
is excluded from the token. At end of input there is nothing to move over. -/
def TSLexer.advance (lexer : TSLexer) (skip : Bool) : TSLexer :=
  match lexer.input with
  | [] => lexer
  | _ :: rest =>
    { lexer with
      input := rest
      position := lexer.position + 1
      token_start := if skip then lexer.position + 1 else lexer.token_start }

/-- The two `std::string` members of `struct Scanner`. -/
structure Scanner where
  heredoc_delimiter : List Nat
  current_leading_word : List Nat
  deriving DecidableEq, Repr

/-- What `tree_sitter_bash_external_scanner_create` returns: `new Scanner()`. -/
def Scanner.create : Scanner :=
  { heredoc_delimiter := [], current_leading_word := [] }

/-- Embeds `Scanner::skip`. -/
def skip (lexer : TSLexer) : TSLexer :=
  lexer.advance true

/-- Embeds `Scanner::advance`. -/
def advance (lexer : TSLexer) : TSLexer :=
  lexer.advance false

/-! ## Serialization -/

/-- Embeds `Scanner::serialize`. `cap` is `TREE_SITTER_SERIALIZATION_BUFFER_SIZE`, a
macro of `tree_sitter/parser.h`; `buffer` is the caller's buffer before the
call. The result is the returned length and the buffer after the `memcpy`.
`unsigned length = heredoc_delimiter.size()` narrows to 32 bits. -/
def serialize (cap : Nat) (scanner : Scanner) (buffer : List Nat) : Nat × List Nat :=
  let length := scanner.heredoc_delimiter.length % 2 ^ 32
  if length < cap then
    (length, scanner.heredoc_delimiter.take length ++ buffer.drop length)
  else
    (0, buffer)

/-- Embeds `Scanner::deserialize`: `heredoc_delimiter.assign(buffer, buffer + length)`. -/
def deserialize (scanner : Scanner) (buffer : List Nat) (length : Nat) : Scanner :=
  { scanner with heredoc_delimiter := buffer.take length }

/-! ## Scanning -/

/-- The `while` loop of `Scanner::scan_heredoc_end_identifier`. -/
def scan_heredoc_end_identifier_loop : Nat → Scanner → TSLexer → Option (Scanner × TSLexer)
  | 0, _, _ => none
  | fuel + 1, scanner, lexer =>
    if iswalpha lexer.lookahead || lexer.lookahead == ch_underscore then
      scan_heredoc_end_identifier_loop fuel
        { scanner with
          current_leading_word := scanner.current_leading_word ++ [lexer.lookahead % 256] }
        (advance lexer)
    else
      some (scanner, lexer)

/-- Embeds `Scanner::scan_heredoc_end_identifier`. -/
def scan_heredoc_end_identifier (fuel : Nat) (scanner : Scanner) (lexer : TSLexer) :
    Option (Bool × Scanner × TSLexer) :=
  match scan_heredoc_end_identifier_loop fuel { scanner with current_leading_word := [] } lexer with
  | none => none
  | some (scanner1, lexer1) =>
    some (scanner1.current_leading_word == scanner1.heredoc_delimiter, scanner1, lexer1)

/-- The `for (;;)` loop of `Scanner::scan_heredoc_content`, with the local
`did_advance` as an argument. -/
def scan_heredoc_content_loop :
    Nat → Scanner → TSLexer → TokenType → TokenType → Bool → Option (Bool × Scanner × TSLexer)
  | 0, _, _, _, _, _ => none
  | fuel + 1, scanner, lexer, middle_type, end_type, did_advance =>
    if lexer.lookahead == ch_nul then
      some (true, { scanner with heredoc_delimiter := [] },
        { lexer with result_symbol := end_type })
    else if lexer.lookahead == ch_dollar then
      some (did_advance, scanner, { lexer with result_symbol := middle_type })
    else if lexer.lookahead == ch_newline then
      match scan_heredoc_end_identifier fuel scanner (advance lexer) with
      | none => none
      | some (true, scanner1, lexer1) =>
        some (true, { scanner1 with heredoc_delimiter := [] },
          { lexer1 with result_symbol := end_type })
      | some (false, scanner1, lexer1) =>
        scan_heredoc_content_loop fuel scanner1 lexer1 middle_type end_type true
    else
      scan_heredoc_content_loop fuel scanner (advance lexer) middle_type end_type true

/-- Embeds `Scanner::scan_heredoc_content`. -/
def scan_heredoc_content (fuel : Nat) (scanner : Scanner) (lexer : TSLexer)
    (middle_type end_type : TokenType) : Option (Bool × Scanner × TSLexer) :=
  scan_heredoc_content_loop fuel scanner lexer middle_type end_type false

/-- The `while` loop of the `HEREDOC_BEGINNING` branch of `Scanner::scan`, which
collects the delimiter. -/
def heredoc_beginning_loop : Nat → Scanner → TSLexer → Option (Scanner × TSLexer)
  | 0, _, _ => none
  | fuel + 1, scanner, lexer =>
    if iswalpha lexer.lookahead || lexer.lookahead == ch_underscore then
      heredoc_beginning_loop fuel
        { scanner with
          heredoc_delimiter := scanner.heredoc_delimiter ++ [lexer.lookahead % 256] }
        (advance lexer)
    else
      some (scanner, lexer)

/-- The first `for (;;)` loop of the word branch of `Scanner::scan`: blanks and
line continuations. `some (false, _)` is the `return false` inside the loop,
`some (true, _)` is the `break`. -/
def skip_loop : Nat → TSLexer → (TokenType → Bool) → Option (Bool × TSLexer)
  | 0, _, _ => none
  | fuel + 1, lexer, valid_symbols =>
    if lexer.lookahead == ch_space || lexer.lookahead == ch_tab ||
        (lexer.lookahead == ch_newline && !valid_symbols NEWLINE) then
      skip_loop fuel (skip lexer) valid_symbols
    else if lexer.lookahead == ch_backslash then
      if (skip lexer).lookahead == ch_newline then
        skip_loop fuel (skip (skip lexer)) valid_symbols
      else
        some (false, skip lexer)
    else
      some (true, lexer)

/-- The second `for (;;)` loop of the word branch of `Scanner::scan`: the rest of
the word, with the local `is_number` as an argument and in the result. -/
def word_loop : Nat → TSLexer → Bool → Option (Bool × TSLexer)
  | 0, _, _ => none
  | fuel + 1, lexer, is_number =>
    if iswdigit lexer.lookahead then
      word_loop fuel (advance lexer) is_number
    else if iswalpha lexer.lookahead || lexer.lookahead == ch_underscore then
      word_loop fuel (advance lexer) false
    else
      some (is_number, lexer)

/-- Embeds `Scanner::scan`. The result is the returned `bool` with the scanner and the
lexer as the call leaves them. `first` is the test of the first character of
the word: `none` is its `return false`, otherwise the initial `is_number`. -/
def scan (scanner : Scanner) (lexer : TSLexer) (valid_symbols : TokenType → Bool) :
    Option (Bool × Scanner × TSLexer) :=
  let fuel := lexer.input.length + 1
  if valid_symbols CONCAT &&
      !(iswspace lexer.lookahead ||
        lexer.lookahead == ch_gt ||
        lexer.lookahead == ch_lt ||
        lexer.lookahead == ch_rparen ||
        lexer.lookahead == ch_lparen ||
        lexer.lookahead == ch_lbracket ||
        lexer.lookahead == ch_rbracket ||
        lexer.lookahead == ch_rbrace ||
        lexer.lookahead == ch_semicolon ||
        lexer.lookahead == ch_amp ||
        lexer.lookahead == ch_backtick) then
    some (true, scanner, { lexer with result_symbol := CONCAT })
  else if valid_symbols EMPTY_VALUE && iswspace lexer.lookahead then
    some (true, scanner, { lexer with result_symbol := EMPTY_VALUE })
  else if valid_symbols HEREDOC_MIDDLE && !scanner.heredoc_delimiter.isEmpty then
    scan_heredoc_content fuel scanner lexer HEREDOC_MIDDLE HEREDOC_END
  else if valid_symbols HEREDOC_BEGINNING then
    match heredoc_beginning_loop fuel { scanner with heredoc_delimiter := [] } lexer with
    | none => none
    | some (scanner1, lexer1) =>
      if lexer1.lookahead != ch_newline then
        some (false, scanner1, lexer1)
      else
        match scan_heredoc_end_identifier fuel scanner1 (advance lexer1) with
        | none => none
        | some (true, scanner2, lexer2) =>
          some (true, scanner2, { lexer2 with result_symbol := SIMPLE_HEREDOC })
        | some (false, scanner2, lexer2) =>
          scan_heredoc_content fuel scanner2 lexer2 HEREDOC_BEGINNING SIMPLE_HEREDOC
  else if valid_symbols VARIABLE_NAME || valid_symbols FILE_DESCRIPTOR then
    match skip_loop fuel lexer valid_symbols with
    | none => none
    | some (false, lexer1) => some (false, scanner, lexer1)
    | some (true, lexer1) =>
      let first : Option Bool :=
        if iswdigit lexer1.lookahead then some true
        else if iswalpha lexer1.lookahead || lexer1.lookahead == ch_underscore then some false
        else none
      match first with
      | none => some (false, scanner, lexer1)
      | some is_number0 =>
        match word_loop fuel (advance lexer1) is_number0 with
        | none => none
        | some (is_number, lexer2) =>
          if is_number && valid_symbols FILE_DESCRIPTOR &&
              (lexer2.lookahead == ch_gt || lexer2.lookahead == ch_lt) then
            some (true, scanner, { lexer2 with result_symbol := FILE_DESCRIPTOR })
          else if valid_symbols VARIABLE_NAME &&
              (lexer2.lookahead == ch_eq || lexer2.lookahead == ch_lbracket) then
            some (true, scanner, { lexer2 with result_symbol := VARIABLE_NAME })
          else
            some (false, scanner, lexer2)
  else
    some (false, scanner, lexer)

/-- The code points of a text, for writing inputs readably. -/
def codes (text : String) : List Nat :=
  text.toList.map Char.toNat

/-- A lexer at the start of `text`, with `kind` as the stale result symbol. -/
def lexerAt (text : List Nat) (kind : TokenType) : TSLexer :=
  { input := text, position := 0, token_start := 0, result_symbol := kind }

/-- The valid-symbols set holding exactly the kinds of `kinds`. -/
def only (kinds : List TokenType) : TokenType → Bool :=
  fun kind => decide (kind ∈ kinds)


/-! ## Predicates used in the statements -/

/-- A letter or an underscore: the test of the two identifier loops. -/
def is_ident (c : Nat) : Bool :=
  iswalpha c || c == ch_underscore

/-- A digit, a letter or an underscore: the characters of a word. -/
def is_word_char (c : Nat) : Bool :=
  iswdigit c || (iswalpha c || c == ch_underscore)

/-- The characters before which a concatenation is refused. -/
def concat_boundary (c : Nat) : Bool :=
  iswspace c || c == ch_gt || c == ch_lt || c == ch_rparen || c == ch_lparen ||
    c == ch_lbracket || c == ch_rbracket || c == ch_rbrace || c == ch_semicolon ||
    c == ch_amp || c == ch_backtick

/-- Whether `body` holds a newline whose following maximal run of letters and
underscores is `delimiter`. -/
def has_terminator (delimiter : List Nat) : List Nat → Bool
  | [] => false
  | c :: rest =>
    (c == ch_newline && decide (rest.takeWhile is_ident = delimiter)) ||
      has_terminator delimiter rest

/-- The cursor of `later` is the cursor of `start` moved forward over some of its
unread input. -/
def advanced (start later : TSLexer) : Prop :=
  ∃ pre, start.input = pre ++ later.input ∧ later.position = start.position + pre.length

/-! ## Basic facts -/

theorem is_ident_lt {c : Nat} (h : is_ident c = true) : c < 128 := by
  simp only [is_ident, iswalpha, ch_underscore, Bool.or_eq_true, Bool.and_eq_true,
    decide_eq_true_eq, beq_iff_eq] at h
  omega

theorem is_ident_mod {c : Nat} (h : is_ident c = true) : c % 256 = c :=
  Nat.mod_eq_of_lt (by have := is_ident_lt h; omega)

theorem is_ident_ne_zero {c : Nat} (h : is_ident c = true) : c ≠ 0 := by
  intro h0; subst h0; simp [is_ident, iswalpha, ch_underscore] at h

theorem lookahead_nil (p t : Nat) (k : TokenType) :
    (TSLexer.mk [] p t k).lookahead = 0 := rfl

theorem lookahead_cons (c : Nat) (cs : List Nat) (p t : Nat) (k : TokenType) :
    (TSLexer.mk (c :: cs) p t k).lookahead = c := rfl

theorem advance_cons (c : Nat) (cs : List Nat) (p t : Nat) (k : TokenType) :
    advance (TSLexer.mk (c :: cs) p t k) = TSLexer.mk cs (p + 1) t k := rfl

theorem skip_cons (c : Nat) (cs : List Nat) (p t : Nat) (k : TokenType) :
    skip (TSLexer.mk (c :: cs) p t k) = TSLexer.mk cs (p + 1) (p + 1) k := rfl

/-! ## The identifier loops -/

/-- When the terminator loop returns, it has moved the cursor over the maximal run
of letters and underscores and appended that run to the leading word. -/
theorem scan_heredoc_end_identifier_loop_some (fuel : Nat) (scanner : Scanner) (lexer : TSLexer)
    (r : Scanner × TSLexer)
    (h : scan_heredoc_end_identifier_loop fuel scanner lexer = some r) :
    r = ({ scanner with
            current_leading_word :=
              scanner.current_leading_word ++ lexer.input.takeWhile is_ident },
         { lexer with
            input := lexer.input.dropWhile is_ident
            position := lexer.position + (lexer.input.takeWhile is_ident).length }) := by
  induction fuel generalizing scanner lexer with
  | zero => simp [scan_heredoc_end_identifier_loop] at h
  | succ n ih =>
    obtain ⟨inp, p, t, k⟩ := lexer
    cases inp with
    | nil =>
      simp [scan_heredoc_end_identifier_loop, TSLexer.lookahead, iswalpha, ch_underscore] at h
      simp [← h]
    | cons c cs =>
      unfold scan_heredoc_end_identifier_loop at h
      rw [lookahead_cons, advance_cons] at h
      by_cases hc : is_ident c = true
      · have hc2 : (iswalpha c || c == ch_underscore) = true := hc
        rw [if_pos hc2] at h
        rw [ih _ _ h]
        simp [List.takeWhile_cons, List.dropWhile_cons, hc, is_ident_mod hc]
        omega
      · have hc2 : ¬ (iswalpha c || c == ch_underscore) = true := hc
        rw [if_neg hc2] at h
        simp at hc
        simp only [Option.some.injEq] at h
        simp [← h, List.takeWhile_cons, List.dropWhile_cons, hc]

/-- The terminator loop returns whenever the fuel exceeds the unread input. -/
theorem scan_heredoc_end_identifier_loop_total (fuel : Nat) (scanner : Scanner) (lexer : TSLexer)
    (h : lexer.input.length < fuel) :
    ∃ r, scan_heredoc_end_identifier_loop fuel scanner lexer = some r := by
  induction fuel generalizing scanner lexer with
  | zero => omega
  | succ n ih =>
    obtain ⟨inp, p, t, k⟩ := lexer
    cases inp with
    | nil =>
      exact ⟨(scanner, ⟨[], p, t, k⟩), by
        simp [scan_heredoc_end_identifier_loop, TSLexer.lookahead, iswalpha, ch_underscore]⟩
    | cons c cs =>
      unfold scan_heredoc_end_identifier_loop
      rw [lookahead_cons, advance_cons]
      split
      · exact ih _ _ (by simpa using h)
      · exact ⟨_, rfl⟩

/-- The value of the terminator loop under enough fuel. -/
theorem scan_heredoc_end_identifier_loop_eq (fuel : Nat) (scanner : Scanner) (lexer : TSLexer)
    (h : lexer.input.length < fuel) :
    scan_heredoc_end_identifier_loop fuel scanner lexer =
      some ({ scanner with
                current_leading_word :=
                  scanner.current_leading_word ++ lexer.input.takeWhile is_ident },
            { lexer with
                input := lexer.input.dropWhile is_ident
                position := lexer.position + (lexer.input.takeWhile is_ident).length }) := by
  obtain ⟨r, hr⟩ := scan_heredoc_end_identifier_loop_total fuel scanner lexer h
  rw [hr, scan_heredoc_end_identifier_loop_some fuel scanner lexer r hr]

/-- The value of `scan_heredoc_end_identifier` under enough fuel: the cursor moves
over the maximal run of letters and underscores, and the answer is whether
that run is the delimiter. -/
theorem scan_heredoc_end_identifier_eq (fuel : Nat) (scanner : Scanner) (lexer : TSLexer)
    (h : lexer.input.length < fuel) :
    scan_heredoc_end_identifier fuel scanner lexer =
      some (lexer.input.takeWhile is_ident == scanner.heredoc_delimiter,
            { scanner with current_leading_word := lexer.input.takeWhile is_ident },
            { lexer with
                input := lexer.input.dropWhile is_ident
                position := lexer.position + (lexer.input.takeWhile is_ident).length }) := by
  unfold scan_heredoc_end_identifier
  rw [scan_heredoc_end_identifier_loop_eq fuel _ lexer h]
  simp

/-- What `scan_heredoc_end_identifier` returned, whenever it returns. -/
theorem scan_heredoc_end_identifier_some (fuel : Nat) (scanner : Scanner) (lexer : TSLexer)
    (r : Bool × Scanner × TSLexer) (h : scan_heredoc_end_identifier fuel scanner lexer = some r) :
    r = (lexer.input.takeWhile is_ident == scanner.heredoc_delimiter,
          { scanner with current_leading_word := lexer.input.takeWhile is_ident },
          { lexer with
              input := lexer.input.dropWhile is_ident
              position := lexer.position + (lexer.input.takeWhile is_ident).length }) := by
  unfold scan_heredoc_end_identifier at h
  split at h
  · simp at h
  · rename_i s1 l1 heq
    have := scan_heredoc_end_identifier_loop_some fuel _ lexer _ heq
    simp only [Prod.mk.injEq] at this
    obtain ⟨hs, hl⟩ := this
    simp only [Option.some.injEq] at h
    rw [← h, hs, hl]
    simp

/-- When the delimiter loop returns, it has moved the cursor over the maximal run
of letters and underscores and appended that run to the delimiter. -/
theorem heredoc_beginning_loop_some (fuel : Nat) (scanner : Scanner) (lexer : TSLexer)
    (r : Scanner × TSLexer) (h : heredoc_beginning_loop fuel scanner lexer = some r) :
    r = ({ scanner with
            heredoc_delimiter := scanner.heredoc_delimiter ++ lexer.input.takeWhile is_ident },
         { lexer with
            input := lexer.input.dropWhile is_ident
            position := lexer.position + (lexer.input.takeWhile is_ident).length }) := by
  induction fuel generalizing scanner lexer with
  | zero => simp [heredoc_beginning_loop] at h
  | succ n ih =>
    obtain ⟨inp, p, t, k⟩ := lexer
    cases inp with
    | nil =>
      simp [heredoc_beginning_loop, TSLexer.lookahead, iswalpha, ch_underscore] at h
      simp [← h]
    | cons c cs =>
      unfold heredoc_beginning_loop at h
      rw [lookahead_cons, advance_cons] at h
      by_cases hc : is_ident c = true
      · have hc2 : (iswalpha c || c == ch_underscore) = true := hc
        rw [if_pos hc2] at h
        rw [ih _ _ h]
        simp [List.takeWhile_cons, List.dropWhile_cons, hc, is_ident_mod hc]
        omega
      · have hc2 : ¬ (iswalpha c || c == ch_underscore) = true := hc
        rw [if_neg hc2] at h
        simp at hc
        simp only [Option.some.injEq] at h
        simp [← h, List.takeWhile_cons, List.dropWhile_cons, hc]

/-- The delimiter loop returns whenever the fuel exceeds the unread input. -/
theorem heredoc_beginning_loop_total (fuel : Nat) (scanner : Scanner) (lexer : TSLexer)
    (h : lexer.input.length < fuel) :
    ∃ r, heredoc_beginning_loop fuel scanner lexer = some r := by
  induction fuel generalizing scanner lexer with
  | zero => omega
  | succ n ih =>
    obtain ⟨inp, p, t, k⟩ := lexer
    cases inp with
    | nil =>
      exact ⟨(scanner, ⟨[], p, t, k⟩), by
        simp [heredoc_beginning_loop, TSLexer.lookahead, iswalpha, ch_underscore]⟩
    | cons c cs =>
      unfold heredoc_beginning_loop
      rw [lookahead_cons, advance_cons]
      split
      · exact ih _ _ (by simpa using h)
      · exact ⟨_, rfl⟩

/-- The value of the delimiter loop under enough fuel. -/
theorem heredoc_beginning_loop_eq (fuel : Nat) (scanner : Scanner) (lexer : TSLexer)
    (h : lexer.input.length < fuel) :
    heredoc_beginning_loop fuel scanner lexer =
      some ({ scanner with
                heredoc_delimiter := scanner.heredoc_delimiter ++ lexer.input.takeWhile is_ident },
            { lexer with
                input := lexer.input.dropWhile is_ident
                position := lexer.position + (lexer.input.takeWhile is_ident).length }) := by
  obtain ⟨r, hr⟩ := heredoc_beginning_loop_total fuel scanner lexer h
  rw [hr, heredoc_beginning_loop_some fuel scanner lexer r hr]

/-! ## The heredoc content loop -/

theorem length_dropWhile_le (p : Nat → Bool) (xs : List Nat) :
    (xs.dropWhile p).length ≤ xs.length := by
  induction xs with
  | nil => simp
  | cons x xs ih =>
    simp only [List.dropWhile_cons]
    split
    · simp; omega
    · simp

/-- One unfolding of the content loop at a newline, under enough fuel. -/
theorem scan_heredoc_content_loop_newline (fuel : Nat) (scanner : Scanner) (cs : List Nat)
    (p t : Nat) (k middle_type end_type : TokenType) (did_advance : Bool)
    (h : cs.length < fuel) :
    scan_heredoc_content_loop (fuel + 1) scanner ⟨ch_newline :: cs, p, t, k⟩
        middle_type end_type did_advance =
      if cs.takeWhile is_ident = scanner.heredoc_delimiter then
        some (true, ⟨[], cs.takeWhile is_ident⟩,
          ⟨cs.dropWhile is_ident, p + 1 + (cs.takeWhile is_ident).length, t, end_type⟩)
      else
        scan_heredoc_content_loop fuel
          ⟨scanner.heredoc_delimiter, cs.takeWhile is_ident⟩
          ⟨cs.dropWhile is_ident, p + 1 + (cs.takeWhile is_ident).length, t, k⟩
          middle_type end_type true := by
  rw [scan_heredoc_content_loop]
  rw [lookahead_cons, advance_cons, scan_heredoc_end_identifier_eq fuel _ _ (by simpa using h)]
  by_cases hm : cs.takeWhile is_ident = scanner.heredoc_delimiter
  · simp [hm, ch_newline, ch_nul, ch_dollar]
  · have hb : (cs.takeWhile is_ident == scanner.heredoc_delimiter) = false := by simpa using hm
    simp [hm, hb, ch_newline, ch_nul, ch_dollar]

/-- One unfolding of the content loop at a character other than NUL, `$` and
newline. -/
theorem scan_heredoc_content_loop_other (fuel : Nat) (scanner : Scanner) (c : Nat)
    (cs : List Nat) (p t : Nat) (k middle_type end_type : TokenType) (did_advance : Bool)
    (h0 : c ≠ ch_nul) (hd : c ≠ ch_dollar) (hn : c ≠ ch_newline) :
    scan_heredoc_content_loop (fuel + 1) scanner ⟨c :: cs, p, t, k⟩
        middle_type end_type did_advance =
      scan_heredoc_content_loop fuel scanner ⟨cs, p + 1, t, k⟩ middle_type end_type true := by
  rw [scan_heredoc_content_loop]
  simp [lookahead_cons, advance_cons, h0, hd, hn]

/-- The content loop returns whenever the fuel exceeds the unread input. -/
theorem scan_heredoc_content_loop_total (fuel : Nat) (scanner : Scanner) (lexer : TSLexer)
    (middle_type end_type : TokenType) (did_advance : Bool) (h : lexer.input.length < fuel) :
    ∃ r, scan_heredoc_content_loop fuel scanner lexer middle_type end_type did_advance
      = some r := by
  induction fuel generalizing scanner lexer did_advance with
  | zero => omega
  | succ n ih =>
    obtain ⟨inp, p, t, k⟩ := lexer
    cases inp with
    | nil => exact ⟨_, by simp [scan_heredoc_content_loop, TSLexer.lookahead, ch_nul]; rfl⟩
    | cons c cs =>
      simp only [List.length_cons, Nat.add_lt_add_iff_right] at h
      by_cases h0 : c = ch_nul
      · exact ⟨_, by simp [scan_heredoc_content_loop, lookahead_cons, h0]; rfl⟩
      by_cases hd : c = ch_dollar
      · exact ⟨_, by simp [scan_heredoc_content_loop, lookahead_cons, hd, ch_dollar, ch_nul]; rfl⟩
      by_cases hn : c = ch_newline
      · subst hn
        rw [scan_heredoc_content_loop_newline n _ _ _ _ _ _ _ _ h]
        split
        · exact ⟨_, rfl⟩
        · exact ih _ _ _ (lt_of_le_of_lt (length_dropWhile_le _ _) h)
      · rw [scan_heredoc_content_loop_other n _ _ _ _ _ _ _ _ _ h0 hd hn]
        exact ih _ _ _ h

/-- The two ways the content loop returns: at end of input or after a terminator
with success, the end kind and the delimiter cleared; or at a `$` with the
middle kind, the delimiter untouched and success exactly when a character was
consumed. The cursor never moves backwards and no character is skipped. -/
theorem scan_heredoc_content_loop_shape (fuel : Nat) (scanner : Scanner) (lexer : TSLexer)
    (middle_type end_type : TokenType) (did_advance : Bool)
    (b : Bool) (scanner1 : Scanner) (lexer1 : TSLexer)
    (h : scan_heredoc_content_loop fuel scanner lexer middle_type end_type did_advance
      = some (b, scanner1, lexer1)) :
    lexer.position ≤ lexer1.position ∧ lexer1.token_start = lexer.token_start ∧
    ((b = true ∧ scanner1.heredoc_delimiter = [] ∧ lexer1.result_symbol = end_type) ∨
     (scanner1.heredoc_delimiter = scanner.heredoc_delimiter ∧
      lexer1.result_symbol = middle_type ∧ lexer1.lookahead = ch_dollar ∧
      b = (did_advance || decide (lexer.position < lexer1.position)))) := by
  induction fuel generalizing scanner lexer did_advance with
  | zero => simp [scan_heredoc_content_loop] at h
  | succ n ih =>
    rw [scan_heredoc_content_loop] at h
    split at h
    · simp only [Option.some.injEq, Prod.mk.injEq] at h
      obtain ⟨hb, hs, hl⟩ := h
      subst hb hs hl
      simp
    split at h
    · rename_i h0 hd
      simp only [Option.some.injEq, Prod.mk.injEq] at h
      obtain ⟨hb, hs, hl⟩ := h
      subst hb hs hl
      refine ⟨le_refl _, rfl, Or.inr ⟨rfl, rfl, ?_, ?_⟩⟩
      · simpa [TSLexer.lookahead] using hd
      · simp
    split at h
    · rename_i h0 hd hn
      have hne : lexer.input ≠ [] := by
        intro hnil
        simp [TSLexer.lookahead, hnil, ch_newline] at hn
      obtain ⟨inp, p, t, k⟩ := lexer
      cases inp with
      | nil => exact absurd rfl hne
      | cons c cs =>
        rw [advance_cons] at h
        split at h
        · simp at h
        · rename_i s1 l1 heq
          have hr := scan_heredoc_end_identifier_some n _ _ _ heq
          simp only [Prod.mk.injEq] at hr
          obtain ⟨-, hs1, hl1⟩ := hr
          simp only [Option.some.injEq, Prod.mk.injEq] at h
          obtain ⟨hb, hs, hl⟩ := h
          subst hb hs hl hl1
          simp
          omega
        · rename_i s1 l1 heq
          have hr := scan_heredoc_end_identifier_some n _ _ _ heq
          simp only [Prod.mk.injEq] at hr
          obtain ⟨-, hs1, hl1⟩ := hr
          obtain ⟨hp, ht, hcase⟩ := ih _ _ _ h
          subst hs1 hl1
          simp only at hp ht hcase ⊢
          refine ⟨by omega, ht, ?_⟩
          rcases hcase with hc | ⟨h1, h2, h3, h4⟩
          · exact Or.inl hc
          · refine Or.inr ⟨h1, h2, h3, ?_⟩
            rw [h4]
            have : p < lexer1.position := by omega
            simp [this]
    · rename_i h0 hd hn
      have hne : lexer.input ≠ [] := by
        intro hnil
        simp [TSLexer.lookahead, hnil, ch_nul] at h0
      obtain ⟨inp, p, t, k⟩ := lexer
      cases inp with
      | nil => exact absurd rfl hne
      | cons c cs =>
        rw [advance_cons] at h
        obtain ⟨hp, ht, hcase⟩ := ih _ _ _ h
        simp only at hp ht hcase ⊢
        refine ⟨by omega, ht, ?_⟩
        rcases hcase with hc | ⟨h1, h2, h3, h4⟩
        · exact Or.inl hc
        · refine Or.inr ⟨h1, h2, h3, ?_⟩
          rw [h4]
          have : p < lexer1.position := by omega
          simp [this]

theorem not_mem_takeWhile_is_ident (cs : List Nat) :
    ch_nul ∉ cs.takeWhile is_ident ∧ ch_dollar ∉ cs.takeWhile is_ident := by
  constructor
  · intro h
    have := List.mem_takeWhile_imp h
    simp [is_ident, iswalpha, ch_underscore, ch_nul] at this
  · intro h
    have := List.mem_takeWhile_imp h
    simp [is_ident, iswalpha, ch_underscore, ch_dollar] at this

/-- What the content loop consumed: when it returns, the input it started on is
the text it moved over, which holds neither a NUL nor a `$`, followed by the
unread input, and the cursor is further by the length of that text. -/
theorem scan_heredoc_content_loop_consumed (fuel : Nat) (scanner : Scanner) (lexer : TSLexer)
    (middle_type end_type : TokenType) (did_advance : Bool)
    (b : Bool) (scanner1 : Scanner) (lexer1 : TSLexer)
    (h : scan_heredoc_content_loop fuel scanner lexer middle_type end_type did_advance
      = some (b, scanner1, lexer1)) :
    ∃ pre, lexer.input = pre ++ lexer1.input ∧ ch_nul ∉ pre ∧ ch_dollar ∉ pre ∧
      lexer1.position = lexer.position + pre.length := by
  induction fuel generalizing scanner lexer did_advance with
  | zero => simp [scan_heredoc_content_loop] at h
  | succ n ih =>
    rw [scan_heredoc_content_loop] at h
    split at h
    · simp only [Option.some.injEq, Prod.mk.injEq] at h
      obtain ⟨-, -, hl⟩ := h
      subst hl
      exact ⟨[], by simp⟩
    split at h
    · simp only [Option.some.injEq, Prod.mk.injEq] at h
      obtain ⟨-, -, hl⟩ := h
      subst hl
      exact ⟨[], by simp⟩
    split at h
    · rename_i h0 hd hn
      have hne : lexer.input ≠ [] := by
        intro hnil
        simp [TSLexer.lookahead, hnil, ch_newline] at hn
      obtain ⟨inp, p, t, k⟩ := lexer
      cases inp with
      | nil => exact absurd rfl hne
      | cons c cs =>
        have hc : c = ch_newline := by simpa [TSLexer.lookahead] using hn
        subst hc
        rw [advance_cons] at h
        have hrun := not_mem_takeWhile_is_ident cs
        split at h
        · simp at h
        · rename_i s1 l1 heq
          have hr := scan_heredoc_end_identifier_some n _ _ _ heq
          simp only [Prod.mk.injEq] at hr
          obtain ⟨-, -, hl1⟩ := hr
          simp only [Option.some.injEq, Prod.mk.injEq] at h
          obtain ⟨-, -, hl⟩ := h
          subst hl hl1
          refine ⟨ch_newline :: cs.takeWhile is_ident, ?_, ?_, ?_, ?_⟩
          · simp [List.takeWhile_append_dropWhile]
          · simp only [ch_nul, ch_newline] at hrun ⊢
            simp [hrun.1]
          · simp only [ch_dollar, ch_newline] at hrun ⊢
            simp [hrun.2]
          · simp; omega
        · rename_i s1 l1 heq
          have hr := scan_heredoc_end_identifier_some n _ _ _ heq
          simp only [Prod.mk.injEq] at hr
          obtain ⟨-, -, hl1⟩ := hr
          obtain ⟨pre, hpre, hz, hdl, hpos⟩ := ih _ _ _ h
          subst hl1
          simp only at hpre hpos
          refine ⟨ch_newline :: (cs.takeWhile is_ident ++ pre), ?_, ?_, ?_, ?_⟩
          · simp only [List.cons_append, List.append_assoc, ← hpre,
              List.takeWhile_append_dropWhile]
          · simp only [ch_nul, ch_newline] at hrun hz ⊢
            simp [hrun.1, hz]
          · simp only [ch_dollar, ch_newline] at hrun hdl ⊢
            simp [hrun.2, hdl]
          · simp [hpos]; omega
    · rename_i h0 hd hn
      have hne : lexer.input ≠ [] := by
        intro hnil
        simp [TSLexer.lookahead, hnil, ch_nul] at h0
      obtain ⟨inp, p, t, k⟩ := lexer
      cases inp with
      | nil => exact absurd rfl hne
      | cons c cs =>
        rw [advance_cons] at h
        obtain ⟨pre, hpre, hz, hdl, hpos⟩ := ih _ _ _ h
        simp only at hpre hpos
        have hc0 : ¬ ch_nul = c := by
          intro h'; apply h0; simp [TSLexer.lookahead, ← h']
        have hcd : ¬ ch_dollar = c := by
          intro h'; apply hd; simp [TSLexer.lookahead, ← h']
        refine ⟨c :: pre, ?_, ?_, ?_, ?_⟩
        · simp [hpre]
        · simp [hz, hc0]
        · simp [hdl, hcd]
        · simp [hpos]; omega

/-- With no `$` ahead of the end of input, the content loop under enough fuel
succeeds with the end kind and clears the delimiter. -/
theorem scan_heredoc_content_loop_no_dollar (fuel : Nat) (scanner : Scanner) (lexer : TSLexer)
    (middle_type end_type : TokenType) (did_advance : Bool)
    (hfuel : lexer.input.length < fuel)
    (hd : ch_dollar ∉ lexer.input.takeWhile (fun c => c != ch_nul)) :
    ∃ scanner1 lexer1,
      scan_heredoc_content_loop fuel scanner lexer middle_type end_type did_advance
        = some (true, scanner1, lexer1) ∧
      lexer1.result_symbol = end_type ∧ scanner1.heredoc_delimiter = [] := by
  obtain ⟨⟨b, s1, l1⟩, hr⟩ :=
    scan_heredoc_content_loop_total fuel scanner lexer middle_type end_type did_advance hfuel
  obtain ⟨-, -, hcase⟩ := scan_heredoc_content_loop_shape _ _ _ _ _ _ _ _ _ hr
  rcases hcase with ⟨hb, hs, hk⟩ | ⟨-, -, hla, -⟩
  · subst hb
    exact ⟨s1, l1, hr, hk, hs⟩
  · exfalso
    obtain ⟨pre, hpre, hz, -, -⟩ := scan_heredoc_content_loop_consumed _ _ _ _ _ _ _ _ _ hr
    obtain ⟨inp, p, t, k⟩ := l1
    cases inp with
    | nil => simp [TSLexer.lookahead, ch_dollar] at hla
    | cons c cs =>
      simp only [lookahead_cons] at hla
      subst hla
      apply hd
      rw [hpre, List.takeWhile_append_of_pos
        (fun a ha => by
          have : a ≠ ch_nul := fun h0 => hz (h0 ▸ ha)
          simpa using this)]
      simp [List.takeWhile_cons, ch_dollar, ch_nul]

/-! ## The word branch -/

theorem takeWhile_append_of_all (p : Nat → Bool) (w tail : List Nat)
    (hall : ∀ x ∈ w, p x = true) (hc : p (tail.headD 0) = false) :
    (w ++ tail).takeWhile p = w ∧ (w ++ tail).dropWhile p = tail := by
  induction w with
  | nil =>
    cases tail with
    | nil => simp
    | cons c r =>
      simp only [List.headD_cons] at hc
      simp [List.takeWhile_cons, List.dropWhile_cons, hc]
  | cons x w ih =>
    have hx : p x = true := hall x (List.mem_cons_self _ _)
    have ih2 := ih (fun y hy => hall y (List.mem_cons_of_mem _ hy))
    simp [List.takeWhile_cons, List.dropWhile_cons, hx, ih2.1, ih2.2]

/-- The skip loop stops at once, with a `break`, at a character that is not a
blank, a skippable newline or a backslash. -/
theorem skip_loop_break (fuel : Nat) (lexer : TSLexer) (valid_symbols : TokenType → Bool)
    (h1 : lexer.lookahead ≠ ch_space) (h2 : lexer.lookahead ≠ ch_tab)
    (h3 : lexer.lookahead ≠ ch_newline ∨ valid_symbols NEWLINE = true)
    (h4 : lexer.lookahead ≠ ch_backslash) :
    skip_loop (fuel + 1) lexer valid_symbols = some (true, lexer) := by
  rw [skip_loop]
  have h3b : (lexer.lookahead == ch_newline && !valid_symbols NEWLINE) = false := by
    rcases h3 with h | h
    · simp [h]
    · simp [h]
  simp [h1, h2, h3b, h4]

/-- The value of the word loop under enough fuel: the cursor moves over the
maximal run of word characters, and `is_number` stays true exactly when it
was true and the run is all digits. -/
theorem word_loop_eq (fuel : Nat) (lexer : TSLexer) (is_number : Bool)
    (h : lexer.input.length < fuel) :
    word_loop fuel lexer is_number =
      some (is_number && (lexer.input.takeWhile is_word_char).all iswdigit,
            { lexer with
                input := lexer.input.dropWhile is_word_char
                position := lexer.position + (lexer.input.takeWhile is_word_char).length }) := by
  induction fuel generalizing lexer is_number with
  | zero => omega
  | succ n ih =>
    obtain ⟨inp, p, t, k⟩ := lexer
    cases inp with
    | nil => simp [word_loop, TSLexer.lookahead, iswdigit, iswalpha, ch_underscore]
    | cons c cs =>
      rw [word_loop, lookahead_cons, advance_cons]
      simp only [List.length_cons, Nat.add_lt_add_iff_right] at h
      by_cases hd : iswdigit c = true
      · have hw : is_word_char c = true := by simp [is_word_char, hd]
        rw [if_pos hd, ih _ _ h]
        simp [List.takeWhile_cons, List.dropWhile_cons, hw, hd]
        omega
      · simp only [Bool.not_eq_true] at hd
        by_cases hi : (iswalpha c || c == ch_underscore) = true
        · have hw : is_word_char c = true := by simp only [is_word_char, hi, Bool.or_true]
          rw [if_neg (by simp [hd]), if_pos hi, ih _ _ h]
          simp [List.takeWhile_cons, List.dropWhile_cons, hw, hd]
          omega
        · have hw : is_word_char c = false := by
            simp only [Bool.not_eq_true] at hi
            simp only [is_word_char, hi, hd, Bool.or_false]
          rw [if_neg (by simp [hd]), if_neg hi]
          simp [List.takeWhile_cons, List.dropWhile_cons, hw]

theorem is_word_char_ne {c : Nat} (h : is_word_char c = true) :
    c ≠ ch_space ∧ c ≠ ch_tab ∧ c ≠ ch_newline ∧ c ≠ ch_backslash := by
  simp only [is_word_char, iswdigit, iswalpha, ch_underscore, Bool.or_eq_true,
    Bool.and_eq_true, decide_eq_true_eq, beq_iff_eq] at h
  simp only [ch_space, ch_tab, ch_newline, ch_backslash]
  omega

/-- The word branch on a word: with no earlier branch requested, a non-empty word
`w` followed by a character outside the word class is consumed whole, and the
result is decided by whether `w` is all digits and by the character after it. -/
theorem scan_word_eq (scanner : Scanner) (w tail : List Nat) (p t : Nat) (k : TokenType)
    (valid_symbols : TokenType → Bool)
    (hw : w ≠ []) (hall : ∀ x ∈ w, is_word_char x = true)
    (hc : is_word_char (tail.headD 0) = false)
    (hreq : valid_symbols FILE_DESCRIPTOR = true ∨ valid_symbols VARIABLE_NAME = true)
    (h1 : valid_symbols CONCAT = false) (h2 : valid_symbols EMPTY_VALUE = false)
    (h3 : valid_symbols HEREDOC_MIDDLE = false) (h4 : valid_symbols HEREDOC_BEGINNING = false) :
    scan scanner ⟨w ++ tail, p, t, k⟩ valid_symbols =
      if w.all iswdigit && valid_symbols FILE_DESCRIPTOR &&
          (tail.headD 0 == ch_gt || tail.headD 0 == ch_lt) then
        some (true, scanner, ⟨tail, p + w.length, t, FILE_DESCRIPTOR⟩)
      else if valid_symbols VARIABLE_NAME &&
          (tail.headD 0 == ch_eq || tail.headD 0 == ch_lbracket) then
        some (true, scanner, ⟨tail, p + w.length, t, VARIABLE_NAME⟩)
      else
        some (false, scanner, ⟨tail, p + w.length, t, k⟩) := by
  cases w with
  | nil => exact absurd rfl hw
  | cons x w =>
    have hx : is_word_char x = true := hall x (List.mem_cons_self _ _)
    have hrest := takeWhile_append_of_all is_word_char w tail
      (fun y hy => hall y (List.mem_cons_of_mem _ hy)) hc
    obtain ⟨n1, n2, n3, n4⟩ := is_word_char_ne hx
    have hor : (valid_symbols VARIABLE_NAME || valid_symbols FILE_DESCRIPTOR) = true := by
      rcases hreq with h | h <;> simp [h]
    simp only [scan, h1, h2, h3, h4, hor, Bool.false_and, List.cons_append, List.length_cons]
    rw [skip_loop_break _ _ _ (by simpa [TSLexer.lookahead] using n1)
      (by simpa [TSLexer.lookahead] using n2) (Or.inl (by simpa [TSLexer.lookahead] using n3))
      (by simpa [TSLexer.lookahead] using n4)]
    simp only [lookahead_cons, advance_cons]
    have hlen : (TSLexer.mk (w ++ tail) (p + 1) t k).input.length < (w ++ tail).length + 1 + 1 := by
      simp only [List.length_append]; omega
    by_cases hd : iswdigit x = true
    · simp only [hd, if_true, Bool.false_eq_true, if_false]
      rw [word_loop_eq _ _ _ hlen]
      simp only [hrest.1, hrest.2, List.all_cons, hd, Bool.true_and, TSLexer.lookahead]
      have : p + 1 + w.length = p + (w.length + 1) := by omega
      rw [this]
    · simp only [Bool.not_eq_true] at hd
      have hi : (iswalpha x || x == ch_underscore) = true := by
        simpa [is_word_char, hd] using hx
      simp only [hd, hi, if_true, Bool.false_eq_true, if_false]
      rw [word_loop_eq _ _ _ hlen]
      simp only [hrest.1, hrest.2, List.all_cons, hd, Bool.false_and, TSLexer.lookahead]
      have : p + 1 + w.length = p + (w.length + 1) := by omega
      rw [this]

/-! ## Finding the terminator -/

theorem takeWhile_append_cons_of_neg (p : Nat → Bool) (xs : List Nat) (y : Nat) (ys : List Nat)
    (hy : p y = false) :
    (xs ++ y :: ys).takeWhile p = xs.takeWhile p ∧
      (xs ++ y :: ys).dropWhile p = xs.dropWhile p ++ y :: ys := by
  induction xs with
  | nil => simp [List.takeWhile_cons, List.dropWhile_cons, hy]
  | cons x xs ih =>
    by_cases hx : p x = true
    · simp [List.takeWhile_cons, List.dropWhile_cons, hx, ih.1, ih.2]
    · simp only [Bool.not_eq_true] at hx
      simp [List.takeWhile_cons, List.dropWhile_cons, hx]

theorem has_terminator_dropWhile (delimiter : List Nat) (p : Nat → Bool) (xs : List Nat)
    (h : has_terminator delimiter xs = false) :
    has_terminator delimiter (xs.dropWhile p) = false := by
  induction xs with
  | nil => simpa using h
  | cons x xs ih =>
    simp only [List.dropWhile_cons]
    split
    · apply ih
      simp only [has_terminator, Bool.or_eq_false_iff] at h
      exact h.2
    · exact h

theorem length_takeWhile_add_dropWhile (p : Nat → Bool) (xs : List Nat) :
    (xs.takeWhile p).length + (xs.dropWhile p).length = xs.length := by
  rw [← List.length_append, List.takeWhile_append_dropWhile]

/-- The content loop finds the terminator: on a body `b` without NUL, `$` or an
earlier terminator line, followed by a newline, the delimiter and a character
that is neither a letter nor an underscore, it succeeds with the end kind,
stops right after the delimiter and clears it. -/
theorem scan_heredoc_content_loop_terminator (fuel : Nat) (delimiter word b tail : List Nat)
    (p t : Nat) (k middle_type end_type : TokenType) (did_advance : Bool)
    (hb : ∀ c ∈ b, c ≠ ch_nul ∧ c ≠ ch_dollar)
    (hterm : has_terminator delimiter b = false)
    (hD : ∀ c ∈ delimiter, is_ident c = true)
    (htail : is_ident (tail.headD 0) = false)
    (hfuel : (b ++ ch_newline :: (delimiter ++ tail)).length < fuel) :
    scan_heredoc_content_loop fuel ⟨delimiter, word⟩
        ⟨b ++ ch_newline :: (delimiter ++ tail), p, t, k⟩ middle_type end_type did_advance =
      some (true, ⟨[], delimiter⟩,
        ⟨tail, p + b.length + 1 + delimiter.length, t, end_type⟩) := by
  have hnl : is_ident ch_newline = false := by decide
  induction fuel generalizing word b p did_advance with
  | zero => omega
  | succ n ih =>
    cases b with
    | nil =>
      simp only [List.nil_append, List.length_cons, Nat.add_lt_add_iff_right] at hfuel
      have hrun := takeWhile_append_of_all is_ident delimiter tail hD htail
      rw [List.nil_append, scan_heredoc_content_loop_newline n _ _ _ _ _ _ _ _ hfuel]
      simp only [hrun.1, hrun.2, if_true, List.length_nil, Nat.add_zero]
    | cons c b1 =>
      simp only [List.cons_append, List.length_cons, Nat.add_lt_add_iff_right] at hfuel
      have hb1 : ∀ x ∈ b1, x ≠ ch_nul ∧ x ≠ ch_dollar :=
        fun x hx => hb x (List.mem_cons_of_mem _ hx)
      obtain ⟨hc0, hcd⟩ := hb c (List.mem_cons_self _ _)
      simp only [has_terminator, Bool.or_eq_false_iff, Bool.and_eq_false_iff] at hterm
      obtain ⟨hhere, hterm1⟩ := hterm
      by_cases hn : c = ch_newline
      · subst hn
        have hrun := takeWhile_append_cons_of_neg is_ident b1 ch_newline (delimiter ++ tail) hnl
        have hne : ¬ b1.takeWhile is_ident = delimiter := by
          rcases hhere with h | h
          · simp at h
          · simpa using h
        rw [List.cons_append, scan_heredoc_content_loop_newline n _ _ _ _ _ _ _ _ hfuel]
        simp only [hrun.1, hrun.2, if_neg hne]
        rw [ih _ (b1.dropWhile is_ident) _ _
          (fun x hx => hb1 x ((List.dropWhile_suffix is_ident).mem hx))
          (has_terminator_dropWhile delimiter is_ident b1 hterm1)]
        · have := length_takeWhile_add_dropWhile is_ident b1
          simp only [List.length_cons, Option.some.injEq, Prod.mk.injEq, TSLexer.mk.injEq,
            true_and, and_true]
          omega
        · have := length_dropWhile_le is_ident b1
          simp only [List.length_append, List.length_cons] at hfuel ⊢
          omega
      · rw [List.cons_append, scan_heredoc_content_loop_other n _ _ _ _ _ _ _ _ _ hc0 hcd hn]
        rw [ih _ b1 _ _ hb1 hterm1 hfuel]
        simp only [List.length_cons, Option.some.injEq, Prod.mk.injEq, TSLexer.mk.injEq,
          true_and, and_true]
        omega

theorem is_ident_head_dropWhile (cs : List Nat) :
    is_ident ((cs.dropWhile is_ident).headD 0) = false := by
  induction cs with
  | nil => decide
  | cons c cs ih =>
    by_cases hc : is_ident c = true
    · simpa [List.dropWhile_cons, hc] using ih
    · simp only [Bool.not_eq_true] at hc
      simp [List.dropWhile_cons, hc]

/-- Why the content loop emitted the end kind: either it stands at a NUL, or the
text it read last is a newline followed by the delimiter and the next
character is neither a letter nor an underscore. -/
theorem scan_heredoc_content_loop_end_cause (fuel : Nat) (scanner : Scanner) (lexer : TSLexer)
    (middle_type end_type : TokenType) (did_advance : Bool)
    (b : Bool) (scanner1 : Scanner) (lexer1 : TSLexer) (hme : middle_type ≠ end_type)
    (h : scan_heredoc_content_loop fuel scanner lexer middle_type end_type did_advance
      = some (b, scanner1, lexer1))
    (hk : lexer1.result_symbol = end_type) :
    lexer1.lookahead = ch_nul ∨
      ∃ pre, lexer.input = pre ++ ch_newline :: (scanner.heredoc_delimiter ++ lexer1.input) ∧
        is_ident lexer1.lookahead = false := by
  induction fuel generalizing scanner lexer did_advance with
  | zero => simp [scan_heredoc_content_loop] at h
  | succ n ih =>
    rw [scan_heredoc_content_loop] at h
    split at h
    · rename_i h0
      simp only [Option.some.injEq, Prod.mk.injEq] at h
      obtain ⟨-, -, hl⟩ := h
      subst hl
      exact Or.inl (by simpa [TSLexer.lookahead] using h0)
    split at h
    · simp only [Option.some.injEq, Prod.mk.injEq] at h
      obtain ⟨-, -, hl⟩ := h
      subst hl
      exact absurd hk hme
    split at h
    · rename_i h0 hd hn
      have hne : lexer.input ≠ [] := by
        intro hnil
        simp [TSLexer.lookahead, hnil, ch_newline] at hn
      obtain ⟨inp, p, t, k⟩ := lexer
      cases inp with
      | nil => exact absurd rfl hne
      | cons c cs =>
        have hc : c = ch_newline := by simpa [TSLexer.lookahead] using hn
        subst hc
        rw [advance_cons] at h
        split at h
        · simp at h
        · rename_i s1 l1 heq
          have hr := scan_heredoc_end_identifier_some n _ _ _ heq
          simp only [Prod.mk.injEq] at hr
          obtain ⟨hmatch, -, hl1⟩ := hr
          simp only [Option.some.injEq, Prod.mk.injEq] at h
          obtain ⟨-, -, hl⟩ := h
          subst hl hl1
          have hrun : cs.takeWhile is_ident = scanner.heredoc_delimiter := by
            simpa using hmatch.symm
          refine Or.inr ⟨[], ?_, ?_⟩
          · simp only [List.nil_append, ← hrun, List.takeWhile_append_dropWhile]
          · exact is_ident_head_dropWhile cs
        · rename_i s1 l1 heq
          have hr := scan_heredoc_end_identifier_some n _ _ _ heq
          simp only [Prod.mk.injEq] at hr
          obtain ⟨-, hs1, hl1⟩ := hr
          subst hs1 hl1
          rcases ih _ _ _ h with h0' | ⟨pre, hpre, hid⟩
          · exact Or.inl h0'
          · simp only at hpre
            refine Or.inr ⟨ch_newline :: (cs.takeWhile is_ident ++ pre), ?_, hid⟩
            have hcs : cs = cs.takeWhile is_ident ++ cs.dropWhile is_ident :=
              (List.takeWhile_append_dropWhile is_ident cs).symm
            rw [hpre] at hcs
            simp only [List.cons_append, List.append_assoc, List.cons.injEq, true_and]
            exact hcs
    · rename_i h0 hd hn
      have hne : lexer.input ≠ [] := by
        intro hnil
        simp [TSLexer.lookahead, hnil, ch_nul] at h0
      obtain ⟨inp, p, t, k⟩ := lexer
      cases inp with
      | nil => exact absurd rfl hne
      | cons c cs =>
        rw [advance_cons] at h
        rcases ih _ _ _ h with h0' | ⟨pre, hpre, hid⟩
        · exact Or.inl h0'
        · simp only at hpre
          exact Or.inr ⟨c :: pre, by simp [hpre], hid⟩

/-- With no delimiter stored and none of concatenation, empty-value, heredoc-begin,
variable-name and file-descriptor requested, scan fails and changes nothing. -/
theorem scan_no_open_heredoc (scanner : Scanner) (lexer : TSLexer)
    (valid_symbols : TokenType → Bool) (hD : scanner.heredoc_delimiter = [])
    (h1 : valid_symbols CONCAT = false) (h2 : valid_symbols EMPTY_VALUE = false)
    (h3 : valid_symbols HEREDOC_BEGINNING = false) (h4 : valid_symbols VARIABLE_NAME = false)
    (h5 : valid_symbols FILE_DESCRIPTOR = false) :
    scan scanner lexer valid_symbols = some (false, scanner, lexer) := by
  simp only [scan, hD, h1, h2, h3, h4, h5, List.isEmpty_nil, Bool.not_true, Bool.and_false,
    Bool.false_and, Bool.or_self, Bool.false_eq_true, if_false]

/-! ## Cursor movement and the loops of the word branch -/

theorem advanced_refl (lexer : TSLexer) : advanced lexer lexer :=
  ⟨[], by simp⟩

theorem advanced_trans {a b c : TSLexer} (hab : advanced a b) (hbc : advanced b c) :
    advanced a c := by
  obtain ⟨p1, h1, h2⟩ := hab
  obtain ⟨p2, h3, h4⟩ := hbc
  exact ⟨p1 ++ p2, by rw [h1, h3, List.append_assoc],
    by rw [h4, h2, List.length_append]; omega⟩

theorem advanced_length_le {a b : TSLexer} (h : advanced a b) :
    b.input.length ≤ a.input.length := by
  obtain ⟨pre, h1, -⟩ := h
  rw [h1, List.length_append]; omega

theorem advanced_lexer_advance (lexer : TSLexer) (s : Bool) :
    advanced lexer (lexer.advance s) ∧
      (lexer.advance s).result_symbol = lexer.result_symbol := by
  obtain ⟨inp, p, t, k⟩ := lexer
  cases inp with
  | nil => exact ⟨⟨[], by simp [TSLexer.advance]⟩, rfl⟩
  | cons c cs => exact ⟨⟨[c], by simp [TSLexer.advance]⟩, rfl⟩

/-- Moving over a character that is not NUL shortens the unread input. -/
theorem advance_length_lt (lexer : TSLexer) (s : Bool) (h : lexer.lookahead ≠ ch_nul) :
    (lexer.advance s).input.length < lexer.input.length := by
  obtain ⟨inp, p, t, k⟩ := lexer
  cases inp with
  | nil => exact absurd rfl h
  | cons c cs => simp [TSLexer.advance]

/-- When the skip loop returns, the cursor has moved forward over part of the
unread input and the result symbol is untouched. -/
theorem skip_loop_some (fuel : Nat) (lexer : TSLexer) (valid_symbols : TokenType → Bool)
    (b : Bool) (lexer1 : TSLexer)
    (h : skip_loop fuel lexer valid_symbols = some (b, lexer1)) :
    advanced lexer lexer1 ∧ lexer1.result_symbol = lexer.result_symbol := by
  induction fuel generalizing lexer with
  | zero => simp [skip_loop] at h
  | succ n ih =>
    rw [skip_loop] at h
    have hs := advanced_lexer_advance lexer true
    have hss := advanced_lexer_advance (skip lexer) true
    split at h
    · obtain ⟨h1, h2⟩ := ih _ h
      exact ⟨advanced_trans hs.1 h1, by rw [h2]; exact hs.2⟩
    split at h
    · split at h
      · obtain ⟨h1, h2⟩ := ih _ h
        exact ⟨advanced_trans hs.1 (advanced_trans hss.1 h1),
          by rw [h2]; exact hss.2.trans hs.2⟩
      · simp only [Option.some.injEq, Prod.mk.injEq] at h
        obtain ⟨-, hl⟩ := h
        subst hl
        exact hs
    · simp only [Option.some.injEq, Prod.mk.injEq] at h
      obtain ⟨-, hl⟩ := h
      subst hl
      exact ⟨advanced_refl _, rfl⟩

/-- The skip loop returns whenever the fuel exceeds the unread input. -/
theorem skip_loop_total (fuel : Nat) (lexer : TSLexer) (valid_symbols : TokenType → Bool)
    (h : lexer.input.length < fuel) :
    ∃ r, skip_loop fuel lexer valid_symbols = some r := by
  induction fuel generalizing lexer with
  | zero => omega
  | succ n ih =>
    rw [skip_loop]
    split
    · rename_i hc
      have hne : lexer.lookahead ≠ ch_nul := by
        intro h0
        rw [h0] at hc
        simp [ch_nul, ch_space, ch_tab, ch_newline] at hc
      have := advance_length_lt lexer true hne
      exact ih _ (by show (lexer.advance true).input.length < n; omega)
    split
    · rename_i hc hb
      have hne : lexer.lookahead ≠ ch_nul := by
        intro h0
        rw [h0] at hb
        simp [ch_nul, ch_backslash] at hb
      have h1 := advance_length_lt lexer true hne
      have h2 := advanced_length_le (advanced_lexer_advance (skip lexer) true).1
      split
      · exact ih _ (by
          show ((skip lexer).advance true).input.length < n
          have : (skip lexer).input.length = (lexer.advance true).input.length := rfl
          omega)
      · exact ⟨_, rfl⟩
    · exact ⟨_, rfl⟩

/-- The skip loop gives the same result under any two amounts of fuel that exceed
the unread input. -/
theorem skip_loop_fuel (f1 f2 : Nat) (lexer : TSLexer) (valid_symbols : TokenType → Bool)
    (h1 : lexer.input.length < f1) (h2 : lexer.input.length < f2) :
    skip_loop f1 lexer valid_symbols = skip_loop f2 lexer valid_symbols := by
  induction f1 generalizing f2 lexer with
  | zero => omega
  | succ n ih =>
    cases f2 with
    | zero => omega
    | succ m =>
      rw [skip_loop, skip_loop]
      split
      · rename_i hc
        have hne : lexer.lookahead ≠ ch_nul := by
          intro h0
          rw [h0] at hc
          simp [ch_nul, ch_space, ch_tab, ch_newline] at hc
        have := advance_length_lt lexer true hne
        exact ih _ _ (by show (lexer.advance true).input.length < n; omega)
          (by show (lexer.advance true).input.length < m; omega)
      split
      · rename_i hc hb
        have hne : lexer.lookahead ≠ ch_nul := by
          intro h0
          rw [h0] at hb
          simp [ch_nul, ch_backslash] at hb
        have h3 := advance_length_lt lexer true hne
        have h4 := advanced_length_le (advanced_lexer_advance (skip lexer) true).1
        have h5 : (skip lexer).input.length = (lexer.advance true).input.length := rfl
        split
        · exact ih _ _ (by show ((skip lexer).advance true).input.length < n; omega)
            (by show ((skip lexer).advance true).input.length < m; omega)
        · rfl
      · rfl

/-- When the word loop returns, the cursor has moved forward over part of the
unread input and the result symbol is untouched. -/
theorem word_loop_some (fuel : Nat) (lexer : TSLexer) (is_number : Bool)
    (b : Bool) (lexer1 : TSLexer) (h : word_loop fuel lexer is_number = some (b, lexer1)) :
    advanced lexer lexer1 ∧ lexer1.result_symbol = lexer.result_symbol := by
  induction fuel generalizing lexer is_number with
  | zero => simp [word_loop] at h
  | succ n ih =>
    rw [word_loop] at h
    have hs := advanced_lexer_advance lexer false
    split at h
    · obtain ⟨h1, h2⟩ := ih _ _ h
      exact ⟨advanced_trans hs.1 h1, by rw [h2]; exact hs.2⟩
    split at h
    · obtain ⟨h1, h2⟩ := ih _ _ h
      exact ⟨advanced_trans hs.1 h1, by rw [h2]; exact hs.2⟩
    · simp only [Option.some.injEq, Prod.mk.injEq] at h
      obtain ⟨-, hl⟩ := h
      subst hl
      exact ⟨advanced_refl _, rfl⟩

theorem advanced_of_takeWhile (lexer : TSLexer) (p : Nat → Bool) :
    advanced lexer
      { lexer with
        input := lexer.input.dropWhile p
        position := lexer.position + (lexer.input.takeWhile p).length } :=
  ⟨lexer.input.takeWhile p, by simp [List.takeWhile_append_dropWhile], rfl⟩

/-- The content loop only moves the cursor forward. -/
theorem scan_heredoc_content_loop_advanced (fuel : Nat) (scanner : Scanner) (lexer : TSLexer)
    (middle_type end_type : TokenType) (did_advance : Bool)
    (b : Bool) (scanner1 : Scanner) (lexer1 : TSLexer)
    (h : scan_heredoc_content_loop fuel scanner lexer middle_type end_type did_advance
      = some (b, scanner1, lexer1)) :
    advanced lexer lexer1 := by
  obtain ⟨pre, h1, -, -, h2⟩ := scan_heredoc_content_loop_consumed _ _ _ _ _ _ _ _ _ h
  exact ⟨pre, h1, h2⟩

/-- The ways a call of scan ends, branch by branch: concatenation; empty-value;
the heredoc-middle branch, which is the content loop; the heredoc-begin
branch, which stores the letter/underscore run at the cursor as the
delimiter and then fails, emits simple-heredoc, or runs the content loop; the
word branch and the final `return false`, which leave the scanner alone. -/
theorem scan_outcome (scanner : Scanner) (lexer : TSLexer) (valid_symbols : TokenType → Bool)
    (b : Bool) (scanner1 : Scanner) (lexer1 : TSLexer)
    (h : scan scanner lexer valid_symbols = some (b, scanner1, lexer1)) :
    (valid_symbols CONCAT = true ∧ b = true ∧ scanner1 = scanner ∧
        lexer1 = { lexer with result_symbol := CONCAT }) ∨
    (valid_symbols EMPTY_VALUE = true ∧ b = true ∧ scanner1 = scanner ∧
        lexer1 = { lexer with result_symbol := EMPTY_VALUE }) ∨
    (valid_symbols HEREDOC_MIDDLE = true ∧ scanner.heredoc_delimiter ≠ [] ∧
        scan_heredoc_content_loop (lexer.input.length + 1) scanner lexer
          HEREDOC_MIDDLE HEREDOC_END false = some (b, scanner1, lexer1)) ∨
    (valid_symbols HEREDOC_BEGINNING = true ∧
        (valid_symbols HEREDOC_MIDDLE = false ∨ scanner.heredoc_delimiter = []) ∧
        ((b = false ∧ scanner1.heredoc_delimiter = lexer.input.takeWhile is_ident ∧
            advanced lexer lexer1 ∧ lexer1.result_symbol = lexer.result_symbol) ∨
         (b = true ∧ scanner1.heredoc_delimiter = lexer.input.takeWhile is_ident ∧
            advanced lexer lexer1 ∧ lexer1.result_symbol = SIMPLE_HEREDOC) ∨
         (∃ scanner2 lexer2,
            scanner2.heredoc_delimiter = lexer.input.takeWhile is_ident ∧
            advanced lexer lexer2 ∧
            scan_heredoc_content_loop (lexer.input.length + 1) scanner2 lexer2
              HEREDOC_BEGINNING SIMPLE_HEREDOC false = some (b, scanner1, lexer1)))) ∨
    (valid_symbols HEREDOC_BEGINNING = false ∧ scanner1 = scanner ∧ advanced lexer lexer1 ∧
        ((b = false ∧ lexer1.result_symbol = lexer.result_symbol) ∨
         (b = true ∧ lexer1.result_symbol = FILE_DESCRIPTOR ∧
            valid_symbols FILE_DESCRIPTOR = true) ∨
         (b = true ∧ lexer1.result_symbol = VARIABLE_NAME ∧
            valid_symbols VARIABLE_NAME = true))) := by
  simp only [scan] at h
  split at h
  · rename_i hc
    simp only [Option.some.injEq, Prod.mk.injEq] at h
    obtain ⟨hb, hs, hl⟩ := h
    simp only [Bool.and_eq_true] at hc
    exact Or.inl ⟨hc.1, hb.symm, hs.symm, hl.symm⟩
  split at h
  · rename_i hc
    simp only [Option.some.injEq, Prod.mk.injEq] at h
    obtain ⟨hb, hs, hl⟩ := h
    simp only [Bool.and_eq_true] at hc
    exact Or.inr (Or.inl ⟨hc.1, hb.symm, hs.symm, hl.symm⟩)
  split at h
  · rename_i hc
    simp only [Bool.and_eq_true, Bool.not_eq_true', List.isEmpty_eq_false] at hc
    exact Or.inr (Or.inr (Or.inl ⟨hc.1, by simpa using hc.2, h⟩))
  rename_i hmid
  have hmid2 : valid_symbols HEREDOC_MIDDLE = false ∨ scanner.heredoc_delimiter = [] := by
    cases hv : valid_symbols HEREDOC_MIDDLE with
    | false => exact Or.inl rfl
    | true =>
      right
      cases hd : scanner.heredoc_delimiter with
      | nil => rfl
      | cons x xs => simp [hv, hd] at hmid
  split at h
  · rename_i hb
    refine Or.inr (Or.inr (Or.inr (Or.inl ⟨hb, hmid2, ?_⟩)))
    split at h
    · simp at h
    · rename_i s1 l1 heq
      have hr := heredoc_beginning_loop_some _ _ _ _ heq
      simp only [Prod.mk.injEq, List.nil_append] at hr
      obtain ⟨hs1, hl1⟩ := hr
      have hadv1 : advanced lexer l1 := by rw [hl1]; exact advanced_of_takeWhile lexer is_ident
      split at h
      · simp only [Option.some.injEq, Prod.mk.injEq] at h
        obtain ⟨hb', hs, hl⟩ := h
        subst hb' hs hl
        exact Or.inl ⟨rfl, by rw [hs1], hadv1, by rw [hl1]⟩
      · have hadv2 : advanced lexer (advance l1) :=
          advanced_trans hadv1 (advanced_lexer_advance l1 false).1
        split at h
        · simp at h
        · rename_i s2 l2 heq2
          have hr2 := scan_heredoc_end_identifier_some _ _ _ _ heq2
          simp only [Prod.mk.injEq] at hr2
          obtain ⟨-, hs2, hl2⟩ := hr2
          simp only [Option.some.injEq, Prod.mk.injEq] at h
          obtain ⟨hb', hs, hl⟩ := h
          subst hb' hs hl
          refine Or.inr (Or.inl ⟨rfl, by rw [hs2, hs1], ?_, rfl⟩)
          have hadv3 : advanced (advance l1) l2 := by
            rw [hl2]; exact advanced_of_takeWhile (advance l1) is_ident
          obtain ⟨pre, hp1, hp2⟩ := advanced_trans hadv2 hadv3
          exact ⟨pre, hp1, hp2⟩
        · rename_i s2 l2 heq2
          have hr2 := scan_heredoc_end_identifier_some _ _ _ _ heq2
          simp only [Prod.mk.injEq] at hr2
          obtain ⟨-, hs2, hl2⟩ := hr2
          have hadv3 : advanced (advance l1) l2 := by
            rw [hl2]; exact advanced_of_takeWhile (advance l1) is_ident
          exact Or.inr (Or.inr ⟨s2, l2, by rw [hs2, hs1], advanced_trans hadv2 hadv3, h⟩)
  rename_i hbeg
  have hbeg2 : valid_symbols HEREDOC_BEGINNING = false := by simpa using hbeg
  refine Or.inr (Or.inr (Or.inr (Or.inr ⟨hbeg2, ?_⟩)))
  split at h
  · split at h
    · simp at h
    · rename_i l1 heq
      obtain ⟨ha, hk⟩ := skip_loop_some _ _ _ _ _ heq
      simp only [Option.some.injEq, Prod.mk.injEq] at h
      obtain ⟨hb', hs, hl⟩ := h
      subst hb' hs hl
      exact ⟨rfl, ha, Or.inl ⟨rfl, hk⟩⟩
    · rename_i l1 heq
      obtain ⟨ha, hk⟩ := skip_loop_some _ _ _ _ _ heq
      split at h
      · simp only [Option.some.injEq, Prod.mk.injEq] at h
        obtain ⟨hb', hs, hl⟩ := h
        subst hb' hs hl
        exact ⟨rfl, ha, Or.inl ⟨rfl, hk⟩⟩
      · split at h
        · simp at h
        · rename_i n0 _ n2 l2 heq2
          obtain ⟨ha2, hk2⟩ := word_loop_some _ _ _ _ _ heq2
          have ha3 : advanced lexer l2 :=
            advanced_trans ha (advanced_trans (advanced_lexer_advance l1 false).1 ha2)
          have hk3 : l2.result_symbol = lexer.result_symbol := by
            rw [hk2]; exact (advanced_lexer_advance l1 false).2.trans hk
          split at h
          · rename_i hc
            simp only [Option.some.injEq, Prod.mk.injEq] at h
            obtain ⟨hb', hs, hl⟩ := h
            subst hb' hs hl
            simp only [Bool.and_eq_true] at hc
            exact ⟨rfl, ha3, Or.inr (Or.inl ⟨rfl, rfl, hc.1.2⟩)⟩
          · split at h
            · rename_i hc
              simp only [Option.some.injEq, Prod.mk.injEq] at h
              obtain ⟨hb', hs, hl⟩ := h
              subst hb' hs hl
              simp only [Bool.and_eq_true] at hc
              exact ⟨rfl, ha3, Or.inr (Or.inr ⟨rfl, rfl, hc.1⟩)⟩
            · simp only [Option.some.injEq, Prod.mk.injEq] at h
              obtain ⟨hb', hs, hl⟩ := h
              subst hb' hs hl
              exact ⟨rfl, ha3, Or.inl ⟨rfl, hk3⟩⟩
  · simp only [Option.some.injEq, Prod.mk.injEq] at h
    obtain ⟨hb', hs, hl⟩ := h
    subst hb' hs hl
    exact ⟨rfl, advanced_refl _, Or.inl ⟨rfl, rfl⟩⟩

/-- The fuel that scan hands to its loops is enough: scan always returns. -/
theorem scan_total (scanner : Scanner) (lexer : TSLexer) (valid_symbols : TokenType → Bool) :
    ∃ r, scan scanner lexer valid_symbols = some r := by
  simp only [scan]
  split
  · exact ⟨_, rfl⟩
  split
  · exact ⟨_, rfl⟩
  split
  · exact scan_heredoc_content_loop_total _ _ _ _ _ _ (Nat.lt_succ_self _)
  split
  · rw [heredoc_beginning_loop_eq _ _ _ (by exact Nat.lt_succ_self _)]
    simp only
    split
    · exact ⟨_, rfl⟩
    · have hlen1 := length_dropWhile_le is_ident lexer.input
      have hlen2 := advanced_length_le (advanced_lexer_advance
        ({ lexer with
            input := lexer.input.dropWhile is_ident
            position := lexer.position + (lexer.input.takeWhile is_ident).length }) false).1
      simp only at hlen2
      rw [scan_heredoc_end_identifier_eq _ _ _ (by show (advance _).input.length < _; simp only [advance]; omega)]
      simp only
      split
      · rename_i heq
        simp at heq
      · exact ⟨_, rfl⟩
      · rename_i heq
        simp only [Option.some.injEq, Prod.mk.injEq] at heq
        obtain ⟨-, -, hl⟩ := heq
        apply scan_heredoc_content_loop_total
        rw [← hl]
        have := length_dropWhile_le is_ident (advance
          ({ lexer with
            input := lexer.input.dropWhile is_ident
            position := lexer.position + (lexer.input.takeWhile is_ident).length })).input
        simp only [advance] at this ⊢
        omega
  split
  · obtain ⟨⟨b1, l1⟩, hr⟩ := skip_loop_total (lexer.input.length + 1) lexer valid_symbols
      (Nat.lt_succ_self _)
    rw [hr]
    obtain ⟨ha, -⟩ := skip_loop_some _ _ _ _ _ hr
    have hlen := advanced_length_le ha
    have hlen2 := advanced_length_le (advanced_lexer_advance l1 false).1
    cases b1 with
    | false => exact ⟨_, rfl⟩
    | true =>
      simp only
      split
      · exact ⟨_, rfl⟩
      · rw [word_loop_eq _ _ _ (by show (l1.advance false).input.length < _; omega)]
        simp only
        split
        · exact ⟨_, rfl⟩
        · split
          · exact ⟨_, rfl⟩
          · exact ⟨_, rfl⟩
  · exact ⟨_, rfl⟩

/-- The content loop reaches a `$`: over a text `pre` without NUL, `$` or terminator
line, followed by a `$`, it stops at the `$` with the middle kind and the
delimiter untouched, and its answer is `did_advance` or whether `pre` is not
empty. -/
theorem scan_heredoc_content_loop_dollar (fuel : Nat) (delimiter word pre rest : List Nat)
    (p t : Nat) (k middle_type end_type : TokenType) (did_advance : Bool)
    (hb : ∀ c ∈ pre, c ≠ ch_nul ∧ c ≠ ch_dollar)
    (hterm : has_terminator delimiter pre = false)
    (hfuel : (pre ++ ch_dollar :: rest).length < fuel) :
    ∃ word1,
      scan_heredoc_content_loop fuel ⟨delimiter, word⟩ ⟨pre ++ ch_dollar :: rest, p, t, k⟩
          middle_type end_type did_advance =
        some (did_advance || !pre.isEmpty, ⟨delimiter, word1⟩,
          ⟨ch_dollar :: rest, p + pre.length, t, middle_type⟩) := by
  have hdl : is_ident ch_dollar = false := by decide
  induction fuel generalizing word pre p did_advance with
  | zero => omega
  | succ n ih =>
    cases pre with
    | nil =>
      refine ⟨word, ?_⟩
      rw [List.nil_append, scan_heredoc_content_loop]
      simp [lookahead_cons, ch_dollar, ch_nul]
    | cons c pre1 =>
      simp only [List.cons_append, List.length_cons, Nat.add_lt_add_iff_right] at hfuel
      have hb1 : ∀ x ∈ pre1, x ≠ ch_nul ∧ x ≠ ch_dollar :=
        fun x hx => hb x (List.mem_cons_of_mem _ hx)
      obtain ⟨hc0, hcd⟩ := hb c (List.mem_cons_self _ _)
      simp only [has_terminator, Bool.or_eq_false_iff, Bool.and_eq_false_iff] at hterm
      obtain ⟨hhere, hterm1⟩ := hterm
      by_cases hn : c = ch_newline
      · subst hn
        have hrun := takeWhile_append_cons_of_neg is_ident pre1 ch_dollar rest hdl
        have hne : ¬ pre1.takeWhile is_ident = delimiter := by
          rcases hhere with h | h
          · simp at h
          · simpa using h
        obtain ⟨word1, hw⟩ := ih (pre1.takeWhile is_ident) (pre1.dropWhile is_ident)
          (p + 1 + (pre1.takeWhile is_ident).length) true
          (fun x hx => hb1 x ((List.dropWhile_suffix is_ident).mem hx))
          (has_terminator_dropWhile delimiter is_ident pre1 hterm1)
          (by have := length_dropWhile_le is_ident pre1
              simp only [List.length_append, List.length_cons] at hfuel ⊢
              omega)
        refine ⟨word1, ?_⟩
        rw [List.cons_append, scan_heredoc_content_loop_newline n _ _ _ _ _ _ _ _ hfuel]
        simp only [hrun.1, hrun.2, if_neg hne]
        rw [hw]
        have := length_takeWhile_add_dropWhile is_ident pre1
        simp only [List.length_cons, List.isEmpty_cons, Bool.not_false, Bool.or_true,
          Bool.true_or, Option.some.injEq, Prod.mk.injEq, TSLexer.mk.injEq, true_and, and_true]
        omega
      · obtain ⟨word1, hw⟩ := ih word pre1 (p + 1) true hb1 hterm1 hfuel
        refine ⟨word1, ?_⟩
        rw [List.cons_append, scan_heredoc_content_loop_other n _ _ _ _ _ _ _ _ _ hc0 hcd hn]
        rw [hw]
        simp only [List.length_cons, List.isEmpty_cons, Bool.not_false, Bool.or_true,
          Bool.true_or, Option.some.injEq, Prod.mk.injEq, TSLexer.mk.injEq, true_and, and_true]
        omega

/-- One turn of the skip loop over a blank: a space, a tab, or a newline when
newline is not requested. -/
theorem skip_loop_blank (fuel : Nat) (c : Nat) (cs : List Nat) (p t : Nat) (k : TokenType)
    (valid_symbols : TokenType → Bool)
    (hc : c = ch_space ∨ c = ch_tab ∨ (c = ch_newline ∧ valid_symbols NEWLINE = false)) :
    skip_loop (fuel + 1) ⟨c :: cs, p, t, k⟩ valid_symbols
      = skip_loop fuel ⟨cs, p + 1, p + 1, k⟩ valid_symbols := by
  rw [skip_loop, lookahead_cons, skip_cons]
  have hcond : (c == ch_space || c == ch_tab ||
      (c == ch_newline && !valid_symbols NEWLINE)) = true := by
    rcases hc with h | h | ⟨h, hv⟩
    · simp [h]
    · simp [h]
    · simp [h, hv]
  rw [if_pos hcond]

/-- One turn of the skip loop over a backslash followed by a newline. -/
theorem skip_loop_continuation (fuel : Nat) (cs : List Nat) (p t : Nat) (k : TokenType)
    (valid_symbols : TokenType → Bool) :
    skip_loop (fuel + 1) ⟨ch_backslash :: ch_newline :: cs, p, t, k⟩ valid_symbols
      = skip_loop fuel ⟨cs, p + 2, p + 2, k⟩ valid_symbols := by
  rw [skip_loop, lookahead_cons, skip_cons, lookahead_cons, skip_cons]
  simp [ch_backslash, ch_space, ch_tab, ch_newline]

/-- The skip loop at a backslash that no newline follows: `return false` right
after the backslash. -/
theorem skip_loop_bad_backslash (fuel : Nat) (tail : List Nat) (p t : Nat) (k : TokenType)
    (valid_symbols : TokenType → Bool) (h : tail.headD 0 ≠ ch_newline) :
    skip_loop (fuel + 1) ⟨ch_backslash :: tail, p, t, k⟩ valid_symbols
      = some (false, ⟨tail, p + 1, p + 1, k⟩) := by
  rw [skip_loop, lookahead_cons, skip_cons]
  have h2 : ((TSLexer.mk tail (p + 1) (p + 1) k).lookahead == ch_newline) = false := by
    simpa [TSLexer.lookahead] using h
  have h3 : (ch_backslash == ch_space || ch_backslash == ch_tab ||
      (ch_backslash == ch_newline && !valid_symbols NEWLINE)) = false := by
    simp [ch_backslash, ch_space, ch_tab, ch_newline]
  rw [h3, h2]
  simp

/-- The skip loop over a run of blanks: it goes on from the text after them, the
token start moved to that place. -/
theorem skip_loop_blanks (fuel : Nat) (ws rest : List Nat) (p t : Nat) (k : TokenType)
    (valid_symbols : TokenType → Bool)
    (hws : ∀ c ∈ ws, c = ch_space ∨ c = ch_tab ∨
      (c = ch_newline ∧ valid_symbols NEWLINE = false)) :
    skip_loop (fuel + ws.length) ⟨ws ++ rest, p, t, k⟩ valid_symbols
      = skip_loop fuel
          ⟨rest, p + ws.length, if ws.isEmpty then t else p + ws.length, k⟩ valid_symbols := by
  induction ws generalizing p t with
  | nil => simp
  | cons c ws ih =>
    have hc := hws c (List.mem_cons_self _ _)
    have hrest := fun x hx => hws x (List.mem_cons_of_mem _ hx)
    rw [List.cons_append, List.length_cons, ← Nat.add_assoc,
      skip_loop_blank _ _ _ _ _ _ _ hc, ih (p + 1) (p + 1) hrest]
    have hp : p + 1 + ws.length = p + (ws.length + 1) := by omega
    cases ws with
    | nil => simp
    | cons d ds => simp only [List.isEmpty_cons, Bool.false_eq_true, if_false, hp]

/-- In the word branch the outcome of scan depends on the lexer only through the
result of the skip loop: two lexers on which the skip loop agrees give the
same result. -/
theorem scan_word_skip_congr (scanner : Scanner) (lexerL lexerR : TSLexer)
    (valid_symbols : TokenType → Bool)
    (hreq : valid_symbols FILE_DESCRIPTOR = true ∨ valid_symbols VARIABLE_NAME = true)
    (h1 : valid_symbols CONCAT = false) (h2 : valid_symbols EMPTY_VALUE = false)
    (h3 : valid_symbols HEREDOC_MIDDLE = false) (h4 : valid_symbols HEREDOC_BEGINNING = false)
    (hlen : lexerR.input.length ≤ lexerL.input.length)
    (hskip : skip_loop (lexerL.input.length + 1) lexerL valid_symbols
      = skip_loop (lexerR.input.length + 1) lexerR valid_symbols) :
    scan scanner lexerL valid_symbols = scan scanner lexerR valid_symbols := by
  have hor : (valid_symbols VARIABLE_NAME || valid_symbols FILE_DESCRIPTOR) = true := by
    rcases hreq with h | h <;> simp [h]
  simp only [scan, h1, h2, h3, h4, hor, Bool.false_and, Bool.false_eq_true, if_false, if_true]
  rw [hskip]
  cases hr : skip_loop (lexerR.input.length + 1) lexerR valid_symbols with
  | none => rfl
  | some r =>
    obtain ⟨b, l1⟩ := r
    cases b with
    | false => rfl
    | true =>
      obtain ⟨ha, -⟩ := skip_loop_some _ _ _ _ _ hr
      have hl1 := advanced_length_le ha
      have hl2 := advanced_length_le (advanced_lexer_advance l1 false).1
      simp only
      split
      · rfl
      · rw [word_loop_eq (lexerL.input.length + 1) _ _
            (by show (l1.advance false).input.length < _; omega),
          word_loop_eq (lexerR.input.length + 1) _ _
            (by show (l1.advance false).input.length < _; omega)]

/-! ## Claims -/

/-- C1, counterexample: with only heredoc-middle marked valid and the delimiter
`EOF`, scan at end of input succeeds and records heredoc-end, a kind that is
not marked valid. -/
theorem scan_emits_unrequested_heredoc_end :
    scan ⟨codes "EOF", []⟩ (lexerAt [] CONCAT) (only [HEREDOC_MIDDLE])
        = some (true, ⟨[], []⟩, lexerAt [] HEREDOC_END) ∧
      only [HEREDOC_MIDDLE] (lexerAt [] HEREDOC_END).result_symbol = false := by
  decide

/-- C1, amended: when scan succeeds, the recorded kind is marked valid, or it is
heredoc-end while heredoc-middle is marked valid and a delimiter was stored,
or it is simple-heredoc while heredoc-begin is marked valid. -/
theorem scan_result_symbol_valid_or_closing (scanner : Scanner) (lexer : TSLexer)
    (valid_symbols : TokenType → Bool) (scanner1 : Scanner) (lexer1 : TSLexer)
    (h : scan scanner lexer valid_symbols = some (true, scanner1, lexer1)) :
    valid_symbols lexer1.result_symbol = true ∨
      (lexer1.result_symbol = HEREDOC_END ∧ valid_symbols HEREDOC_MIDDLE = true ∧
        scanner.heredoc_delimiter ≠ []) ∨
      (lexer1.result_symbol = SIMPLE_HEREDOC ∧ valid_symbols HEREDOC_BEGINNING = true) := by
  simp only [scan] at h
  split at h
  · rename_i hc
    simp only [Option.some.injEq, Prod.mk.injEq, true_and] at h
    obtain ⟨-, hl⟩ := h
    subst hl
    simp only [Bool.and_eq_true] at hc
    exact Or.inl hc.1
  split at h
  · rename_i hc
    simp only [Option.some.injEq, Prod.mk.injEq, true_and] at h
    obtain ⟨-, hl⟩ := h
    subst hl
    simp only [Bool.and_eq_true] at hc
    exact Or.inl hc.1
  split at h
  · rename_i hc
    simp only [Bool.and_eq_true, Bool.not_eq_true', List.isEmpty_eq_false] at hc
    obtain ⟨-, -, hk | ⟨-, hk, -, -⟩⟩ := scan_heredoc_content_loop_shape _ _ _ _ _ _ _ _ _ h
    · exact Or.inr (Or.inl ⟨hk.2.2, hc.1, by simpa using hc.2⟩)
    · exact Or.inl (by rw [hk]; exact hc.1)
  split at h
  · rename_i hb
    split at h
    · simp at h
    · rename_i s1 l1 _
      split at h
      · simp at h
      · split at h
        · simp at h
        · simp only [Option.some.injEq, Prod.mk.injEq, true_and] at h
          obtain ⟨-, hl⟩ := h
          subst hl
          exact Or.inr (Or.inr ⟨rfl, hb⟩)
        · obtain ⟨-, -, hk | ⟨-, hk, -, -⟩⟩ := scan_heredoc_content_loop_shape _ _ _ _ _ _ _ _ _ h
          · exact Or.inr (Or.inr ⟨hk.2.2, hb⟩)
          · exact Or.inl (by rw [hk]; exact hb)
  split at h
  · split at h
    · simp at h
    · simp at h
    · split at h
      · simp at h
      · split at h
        · simp at h
        · split at h
          · rename_i hc
            simp only [Option.some.injEq, Prod.mk.injEq, true_and] at h
            obtain ⟨-, hl⟩ := h
            subst hl
            simp only [Bool.and_eq_true] at hc
            exact Or.inl hc.1.2
          · split at h
            · rename_i hc
              simp only [Option.some.injEq, Prod.mk.injEq, true_and] at h
              obtain ⟨-, hl⟩ := h
              subst hl
              simp only [Bool.and_eq_true] at hc
              exact Or.inl hc.1
            · simp at h
  · simp at h

/-- C1, witness: the amended statement at `42>` with file-descriptor requested. -/
theorem scan_result_symbol_valid_or_closing_witness :
    scan Scanner.create (lexerAt (codes "42>") CONCAT) (only [FILE_DESCRIPTOR])
        = some (true, Scanner.create, ⟨codes ">", 2, 0, FILE_DESCRIPTOR⟩) ∧
      (only [FILE_DESCRIPTOR] FILE_DESCRIPTOR = true ∨
        (FILE_DESCRIPTOR = HEREDOC_END ∧ only [FILE_DESCRIPTOR] HEREDOC_MIDDLE = true ∧
          Scanner.create.heredoc_delimiter ≠ []) ∨
        (FILE_DESCRIPTOR = SIMPLE_HEREDOC ∧ only [FILE_DESCRIPTOR] HEREDOC_BEGINNING = true)) :=
  ⟨by decide,
   scan_result_symbol_valid_or_closing Scanner.create (lexerAt (codes "42>") CONCAT)
     (only [FILE_DESCRIPTOR]) Scanner.create ⟨codes ">", 2, 0, FILE_DESCRIPTOR⟩ (by decide)⟩

/-- C2, the code at the failing input: scanning `EOF\nEOF\n` with heredoc-begin
requested succeeds with simple-heredoc and leaves the delimiter `EOF` stored. -/
theorem scan_simple_heredoc_keeps_delimiter :
    scan Scanner.create (lexerAt (codes "EOF\nEOF\n") CONCAT) (only [HEREDOC_BEGINNING])
      = some (true, ⟨codes "EOF", codes "EOF"⟩, ⟨codes "\n", 7, 0, SIMPLE_HEREDOC⟩) := by
  decide

/-- At or above the capacity, `serialize` leaves the buffer alone and returns 0. -/
theorem serialize_of_capacity_le (cap : Nat) (scanner : Scanner) (buffer : List Nat)
    (h32 : scanner.heredoc_delimiter.length < 2 ^ 32)
    (h : cap ≤ scanner.heredoc_delimiter.length) :
    serialize cap scanner buffer = (0, buffer) := by
  have hlen : scanner.heredoc_delimiter.length % 2 ^ 32 = scanner.heredoc_delimiter.length :=
    Nat.mod_eq_of_lt h32
  have hnot : ¬ scanner.heredoc_delimiter.length < cap := by omega
  simp only [serialize, hlen, if_neg hnot]

/-- C3: for a delimiter shorter than the capacity, serialize returns its length
and writes exactly its bytes at the front of the buffer, and deserialize of
that buffer and length, on any scanner, restores the delimiter. -/
theorem serialize_deserialize_roundtrip (cap : Nat) (scanner other : Scanner)
    (buffer : List Nat) (hcap : cap ≤ 2 ^ 32)
    (h : scanner.heredoc_delimiter.length < cap) :
    (serialize cap scanner buffer).1 = scanner.heredoc_delimiter.length ∧
      (serialize cap scanner buffer).2.take (serialize cap scanner buffer).1
        = scanner.heredoc_delimiter ∧
      (deserialize other (serialize cap scanner buffer).2
        (serialize cap scanner buffer).1).heredoc_delimiter = scanner.heredoc_delimiter := by
  have hlen : scanner.heredoc_delimiter.length % 2 ^ 32 = scanner.heredoc_delimiter.length :=
    Nat.mod_eq_of_lt (lt_of_lt_of_le h hcap)
  simp only [serialize, deserialize, hlen, if_pos h, List.take_length]
  simp

/-- C3, witness: the delimiter `EOF` with the capacity 1024 and a zeroed buffer. -/
theorem serialize_deserialize_roundtrip_witness :
    (serialize 1024 ⟨codes "EOF", []⟩ (List.replicate 1024 0)).1 = 3 ∧
      (serialize 1024 ⟨codes "EOF", []⟩ (List.replicate 1024 0)).2.take
        (serialize 1024 ⟨codes "EOF", []⟩ (List.replicate 1024 0)).1 = codes "EOF" ∧
      (deserialize ⟨codes "STALE", codes "x"⟩
        (serialize 1024 ⟨codes "EOF", []⟩ (List.replicate 1024 0)).2
        (serialize 1024 ⟨codes "EOF", []⟩ (List.replicate 1024 0)).1).heredoc_delimiter
        = codes "EOF" :=
  serialize_deserialize_roundtrip 1024 ⟨codes "EOF", []⟩ ⟨codes "STALE", codes "x"⟩
    (List.replicate 1024 0) (by norm_num) (by decide)

/-- C4, counterexample: with the capacity 1024, a delimiter of 1024 letters `A`
serializes to length 0 and deserializes to the empty delimiter, which is
neither its 1023-byte nor its 1024-byte prefix. -/
theorem serialize_drops_long_delimiter :
    (serialize 1024 ⟨List.replicate 1024 65, []⟩ (List.replicate 1024 0)).1 = 0 ∧
      (deserialize Scanner.create
        (serialize 1024 ⟨List.replicate 1024 65, []⟩ (List.replicate 1024 0)).2
        (serialize 1024 ⟨List.replicate 1024 65, []⟩ (List.replicate 1024 0)).1).heredoc_delimiter
        = [] ∧
      (List.replicate 1024 65).take 1023 ≠ [] ∧ (List.replicate 1024 65).take 1024 ≠ [] := by
  have hs : serialize 1024 ⟨List.replicate 1024 65, []⟩ (List.replicate 1024 0)
      = (0, List.replicate 1024 0) :=
    serialize_of_capacity_le 1024 _ _
      (by show (List.replicate 1024 65).length < 2 ^ 32
          rw [List.length_replicate]; norm_num)
      (by show 1024 ≤ (List.replicate 1024 65).length
          rw [List.length_replicate])
  rw [hs]
  refine ⟨rfl, ?_, ?_, ?_⟩
  · simp only [deserialize, List.take_zero]
  · rw [List.take_replicate]
    exact List.ne_nil_of_length_pos (by rw [List.length_replicate]; norm_num)
  · rw [List.take_replicate]
    exact List.ne_nil_of_length_pos (by rw [List.length_replicate]; norm_num)

/-- C4, amended: for a delimiter whose length is at or above the capacity (and
below 2^32), serialize copies nothing and returns length 0, and deserialize of
that result leaves the empty delimiter. -/
theorem serialize_at_capacity_is_empty (cap : Nat) (scanner other : Scanner)
    (buffer : List Nat) (h32 : scanner.heredoc_delimiter.length < 2 ^ 32)
    (h : cap ≤ scanner.heredoc_delimiter.length) :
    serialize cap scanner buffer = (0, buffer) ∧
      (deserialize other (serialize cap scanner buffer).2
        (serialize cap scanner buffer).1).heredoc_delimiter = [] := by
  rw [serialize_of_capacity_le cap scanner buffer h32 h]
  exact ⟨rfl, rfl⟩

/-- C4, witness: a five-byte delimiter with the capacity 4. -/
theorem serialize_at_capacity_is_empty_witness :
    serialize 4 ⟨codes "ABCDE", []⟩ [0, 0, 0, 0] = (0, [0, 0, 0, 0]) ∧
      (deserialize ⟨codes "STALE", []⟩ (serialize 4 ⟨codes "ABCDE", []⟩ [0, 0, 0, 0]).2
        (serialize 4 ⟨codes "ABCDE", []⟩ [0, 0, 0, 0]).1).heredoc_delimiter = [] :=
  serialize_at_capacity_is_empty 4 ⟨codes "ABCDE", []⟩ ⟨codes "STALE", []⟩ [0, 0, 0, 0]
    (by decide) (by decide)

/-- C8: with concatenation the only producible kind requested, scan fails before a
whitespace character or one of `>`, `<`, `)`, `(`, `[`, `]`, `}`, `;`, `&`,
backtick, leaving scanner and lexer as they were, and before every other
character it succeeds with kind concatenation, the cursor and the delimiter
unchanged. -/
theorem scan_concat_only (scanner : Scanner) (lexer : TSLexer)
    (valid_symbols : TokenType → Bool) (hc : valid_symbols CONCAT = true)
    (ho : ∀ kind, kind ≠ CONCAT → kind ≠ NEWLINE → valid_symbols kind = false) :
    (concat_boundary lexer.lookahead = true →
        scan scanner lexer valid_symbols = some (false, scanner, lexer)) ∧
      (concat_boundary lexer.lookahead = false →
        scan scanner lexer valid_symbols
          = some (true, scanner, { lexer with result_symbol := CONCAT })) := by
  have h1 := ho EMPTY_VALUE (by decide) (by decide)
  have h2 := ho HEREDOC_MIDDLE (by decide) (by decide)
  have h3 := ho HEREDOC_BEGINNING (by decide) (by decide)
  have h4 := ho VARIABLE_NAME (by decide) (by decide)
  have h5 := ho FILE_DESCRIPTOR (by decide) (by decide)
  constructor
  · intro hb
    have hb2 : (iswspace lexer.lookahead || lexer.lookahead == ch_gt ||
        lexer.lookahead == ch_lt || lexer.lookahead == ch_rparen ||
        lexer.lookahead == ch_lparen || lexer.lookahead == ch_lbracket ||
        lexer.lookahead == ch_rbracket || lexer.lookahead == ch_rbrace ||
        lexer.lookahead == ch_semicolon || lexer.lookahead == ch_amp ||
        lexer.lookahead == ch_backtick) = true := hb
    simp only [scan, hc, h1, h2, h3, h4, h5, hb2]
    simp
  · intro hb
    have hb2 : (iswspace lexer.lookahead || lexer.lookahead == ch_gt ||
        lexer.lookahead == ch_lt || lexer.lookahead == ch_rparen ||
        lexer.lookahead == ch_lparen || lexer.lookahead == ch_lbracket ||
        lexer.lookahead == ch_rbracket || lexer.lookahead == ch_rbrace ||
        lexer.lookahead == ch_semicolon || lexer.lookahead == ch_amp ||
        lexer.lookahead == ch_backtick) = false := hb
    simp only [scan, hc, hb2]
    simp

/-- C8, witness: only concatenation requested, with the delimiter `EOF` stored:
before `;` scan fails, before `a` it succeeds, and nothing else changes. -/
theorem scan_concat_only_witness :
    scan ⟨codes "EOF", []⟩ (lexerAt (codes ";x") NEWLINE) (only [CONCAT])
        = some (false, ⟨codes "EOF", []⟩, lexerAt (codes ";x") NEWLINE) ∧
      scan ⟨codes "EOF", []⟩ (lexerAt (codes "ax") NEWLINE) (only [CONCAT])
        = some (true, ⟨codes "EOF", []⟩,
            { lexerAt (codes "ax") NEWLINE with result_symbol := CONCAT }) :=
  ⟨(scan_concat_only ⟨codes "EOF", []⟩ (lexerAt (codes ";x") NEWLINE) (only [CONCAT])
      (by decide) (by decide)).1 (by decide),
   (scan_concat_only ⟨codes "EOF", []⟩ (lexerAt (codes "ax") NEWLINE) (only [CONCAT])
      (by decide) (by decide)).2 (by decide)⟩

/-- C9: with empty-value the only producible kind requested, scan succeeds exactly
when the next character is whitespace; then the kind is empty-value, and in
both cases the cursor and the scanner are unchanged. -/
theorem scan_empty_value_only (scanner : Scanner) (lexer : TSLexer)
    (valid_symbols : TokenType → Bool) (he : valid_symbols EMPTY_VALUE = true)
    (ho : ∀ kind, kind ≠ EMPTY_VALUE → kind ≠ NEWLINE → valid_symbols kind = false) :
    (iswspace lexer.lookahead = true →
        scan scanner lexer valid_symbols
          = some (true, scanner, { lexer with result_symbol := EMPTY_VALUE })) ∧
      (iswspace lexer.lookahead = false →
        scan scanner lexer valid_symbols = some (false, scanner, lexer)) := by
  have h1 := ho CONCAT (by decide) (by decide)
  have h2 := ho HEREDOC_MIDDLE (by decide) (by decide)
  have h3 := ho HEREDOC_BEGINNING (by decide) (by decide)
  have h4 := ho VARIABLE_NAME (by decide) (by decide)
  have h5 := ho FILE_DESCRIPTOR (by decide) (by decide)
  constructor
  · intro hb
    simp only [scan, he, h1, hb]
    simp
  · intro hb
    simp only [scan, he, h1, h2, h3, h4, h5, hb]
    simp

/-- C9, witness: only empty-value requested: before a space scan succeeds, before
`x` it fails, and nothing else changes. -/
theorem scan_empty_value_only_witness :
    scan Scanner.create (lexerAt (codes " x") NEWLINE) (only [EMPTY_VALUE])
        = some (true, Scanner.create,
            { lexerAt (codes " x") NEWLINE with result_symbol := EMPTY_VALUE }) ∧
      scan Scanner.create (lexerAt (codes "x ") NEWLINE) (only [EMPTY_VALUE])
        = some (false, Scanner.create, lexerAt (codes "x ") NEWLINE) :=
  ⟨(scan_empty_value_only Scanner.create (lexerAt (codes " x") NEWLINE) (only [EMPTY_VALUE])
      (by decide) (by decide)).1 (by decide),
   (scan_empty_value_only Scanner.create (lexerAt (codes "x ") NEWLINE) (only [EMPTY_VALUE])
      (by decide) (by decide)).2 (by decide)⟩

/-- C7: with only file-descriptor and/or variable-name requested (no concatenation,
empty-value, heredoc-middle, heredoc-begin) and the cursor at a non-empty word
`w` followed by `c` outside the word class (`c` is NUL at end of input), scan
returns; it emits file-descriptor iff `w` is all digits, file-descriptor is
requested and `c` is `>` or `<`; otherwise it emits variable-name iff
variable-name is requested and `c` is `=` or `[`; otherwise it fails. -/
theorem scan_word_classification (scanner : Scanner) (w tail : List Nat) (p t : Nat)
    (k : TokenType) (valid_symbols : TokenType → Bool)
    (hw : w ≠ []) (hall : ∀ x ∈ w, is_word_char x = true)
    (hc : is_word_char (tail.headD 0) = false)
    (hreq : valid_symbols FILE_DESCRIPTOR = true ∨ valid_symbols VARIABLE_NAME = true)
    (h1 : valid_symbols CONCAT = false) (h2 : valid_symbols EMPTY_VALUE = false)
    (h3 : valid_symbols HEREDOC_MIDDLE = false) (h4 : valid_symbols HEREDOC_BEGINNING = false) :
    ∃ b lexer1, scan scanner ⟨w ++ tail, p, t, k⟩ valid_symbols = some (b, scanner, lexer1) ∧
      ((b = true ∧ lexer1.result_symbol = FILE_DESCRIPTOR) ↔
        (w.all iswdigit = true ∧ valid_symbols FILE_DESCRIPTOR = true ∧
          (tail.headD 0 = ch_gt ∨ tail.headD 0 = ch_lt))) ∧
      ((b = true ∧ lexer1.result_symbol = VARIABLE_NAME) ↔
        (¬ (w.all iswdigit = true ∧ valid_symbols FILE_DESCRIPTOR = true ∧
            (tail.headD 0 = ch_gt ∨ tail.headD 0 = ch_lt)) ∧
          valid_symbols VARIABLE_NAME = true ∧
          (tail.headD 0 = ch_eq ∨ tail.headD 0 = ch_lbracket))) ∧
      (b = false ↔
        (¬ (w.all iswdigit = true ∧ valid_symbols FILE_DESCRIPTOR = true ∧
            (tail.headD 0 = ch_gt ∨ tail.headD 0 = ch_lt)) ∧
          ¬ (valid_symbols VARIABLE_NAME = true ∧
            (tail.headD 0 = ch_eq ∨ tail.headD 0 = ch_lbracket)))) := by
  rw [scan_word_eq scanner w tail p t k valid_symbols hw hall hc hreq h1 h2 h3 h4]
  by_cases hfd : (w.all iswdigit && valid_symbols FILE_DESCRIPTOR &&
      (tail.headD 0 == ch_gt || tail.headD 0 == ch_lt)) = true
  · rw [if_pos hfd]
    have hfd2 : w.all iswdigit = true ∧ valid_symbols FILE_DESCRIPTOR = true ∧
        (tail.headD 0 = ch_gt ∨ tail.headD 0 = ch_lt) := by
      simpa [and_assoc] using hfd
    exact ⟨true, _, rfl, ⟨fun _ => hfd2, fun _ => ⟨rfl, rfl⟩⟩,
      ⟨fun h => absurd (show FILE_DESCRIPTOR = VARIABLE_NAME from h.2) (by decide),
        fun h => absurd hfd2 h.1⟩,
      ⟨fun h => absurd h (by decide), fun h => absurd hfd2 h.1⟩⟩
  · rw [if_neg hfd]
    have hfd2 : ¬ (w.all iswdigit = true ∧ valid_symbols FILE_DESCRIPTOR = true ∧
        (tail.headD 0 = ch_gt ∨ tail.headD 0 = ch_lt)) := by
      simpa [and_assoc] using hfd
    by_cases hvn : (valid_symbols VARIABLE_NAME &&
        (tail.headD 0 == ch_eq || tail.headD 0 == ch_lbracket)) = true
    · rw [if_pos hvn]
      have hvn2 : valid_symbols VARIABLE_NAME = true ∧
          (tail.headD 0 = ch_eq ∨ tail.headD 0 = ch_lbracket) := by
        simpa using hvn
      exact ⟨true, _, rfl,
        ⟨fun h => absurd (show VARIABLE_NAME = FILE_DESCRIPTOR from h.2) (by decide),
          fun h => absurd h hfd2⟩,
        ⟨fun _ => ⟨hfd2, hvn2⟩, fun _ => ⟨rfl, rfl⟩⟩,
        ⟨fun h => absurd h (by decide), fun h => absurd hvn2 h.2⟩⟩
    · rw [if_neg hvn]
      have hvn2 : ¬ (valid_symbols VARIABLE_NAME = true ∧
          (tail.headD 0 = ch_eq ∨ tail.headD 0 = ch_lbracket)) := by
        simpa using hvn
      exact ⟨false, _, rfl, ⟨fun h => absurd h.1 (by decide), fun h => absurd h hfd2⟩,
        ⟨fun h => absurd h.1 (by decide), fun h => absurd h.2 hvn2⟩,
        ⟨fun _ => ⟨hfd2, hvn2⟩, fun _ => rfl⟩⟩

/-- C7, witness: the three words of the claim, `42>` giving file-descriptor, `42=`
and `4a=` giving variable-name, and the statement at `42>`. -/
theorem scan_word_classification_witness :
    scan Scanner.create (lexerAt (codes "42>") NEWLINE) (only [FILE_DESCRIPTOR, VARIABLE_NAME])
        = some (true, Scanner.create, ⟨codes ">", 2, 0, FILE_DESCRIPTOR⟩) ∧
      scan Scanner.create (lexerAt (codes "42=") NEWLINE) (only [FILE_DESCRIPTOR, VARIABLE_NAME])
        = some (true, Scanner.create, ⟨codes "=", 2, 0, VARIABLE_NAME⟩) ∧
      scan Scanner.create (lexerAt (codes "4a=") NEWLINE) (only [FILE_DESCRIPTOR, VARIABLE_NAME])
        = some (true, Scanner.create, ⟨codes "=", 2, 0, VARIABLE_NAME⟩) ∧
      ∃ b lexer1,
        scan Scanner.create ⟨codes "42" ++ codes ">", 0, 0, NEWLINE⟩
            (only [FILE_DESCRIPTOR, VARIABLE_NAME]) = some (b, Scanner.create, lexer1) ∧
        ((b = true ∧ lexer1.result_symbol = FILE_DESCRIPTOR) ↔
          ((codes "42").all iswdigit = true ∧
            only [FILE_DESCRIPTOR, VARIABLE_NAME] FILE_DESCRIPTOR = true ∧
            ((codes ">").headD 0 = ch_gt ∨ (codes ">").headD 0 = ch_lt))) ∧
        ((b = true ∧ lexer1.result_symbol = VARIABLE_NAME) ↔
          (¬ ((codes "42").all iswdigit = true ∧
              only [FILE_DESCRIPTOR, VARIABLE_NAME] FILE_DESCRIPTOR = true ∧
              ((codes ">").headD 0 = ch_gt ∨ (codes ">").headD 0 = ch_lt)) ∧
            only [FILE_DESCRIPTOR, VARIABLE_NAME] VARIABLE_NAME = true ∧
            ((codes ">").headD 0 = ch_eq ∨ (codes ">").headD 0 = ch_lbracket))) ∧
        (b = false ↔
          (¬ ((codes "42").all iswdigit = true ∧
              only [FILE_DESCRIPTOR, VARIABLE_NAME] FILE_DESCRIPTOR = true ∧
              ((codes ">").headD 0 = ch_gt ∨ (codes ">").headD 0 = ch_lt)) ∧
            ¬ (only [FILE_DESCRIPTOR, VARIABLE_NAME] VARIABLE_NAME = true ∧
              ((codes ">").headD 0 = ch_eq ∨ (codes ">").headD 0 = ch_lbracket)))) :=
  ⟨by decide, by decide, by decide,
   scan_word_classification Scanner.create (codes "42") (codes ">") 0 0 NEWLINE
     (only [FILE_DESCRIPTOR, VARIABLE_NAME]) (by decide) (by decide) (by decide)
     (Or.inl (by decide)) (by decide) (by decide) (by decide) (by decide)⟩

/-- C6: with a delimiter stored and heredoc-middle requested (concatenation and
empty-value not requested), on any input with no `$` ahead of its end (the
first NUL, or the end of the text), scan succeeds with kind heredoc-end and
leaves the delimiter empty; this holds whether or not a terminator line comes
first, and also with the cursor already at the end. -/
theorem scan_heredoc_middle_reaches_end (scanner : Scanner) (lexer : TSLexer)
    (valid_symbols : TokenType → Bool)
    (hD : scanner.heredoc_delimiter ≠ []) (hm : valid_symbols HEREDOC_MIDDLE = true)
    (hc : valid_symbols CONCAT = false) (he : valid_symbols EMPTY_VALUE = false)
    (hd : ch_dollar ∉ lexer.input.takeWhile (fun c => c != ch_nul)) :
    ∃ scanner1 lexer1,
      scan scanner lexer valid_symbols = some (true, scanner1, lexer1) ∧
      lexer1.result_symbol = HEREDOC_END ∧ scanner1.heredoc_delimiter = [] := by
  have hne : scanner.heredoc_delimiter.isEmpty = false := by
    cases hdel : scanner.heredoc_delimiter with
    | nil => exact absurd hdel hD
    | cons x xs => rfl
  simp only [scan, hc, he, hm, hne, Bool.false_and, Bool.true_and, Bool.not_false,
    Bool.false_eq_true, if_false, if_true, scan_heredoc_content]
  exact scan_heredoc_content_loop_no_dollar _ scanner lexer HEREDOC_MIDDLE HEREDOC_END false
    (Nat.lt_succ_self _) hd

/-- C6, witness: the delimiter `EOF` and the unterminated body `abc\ndef`. -/
theorem scan_heredoc_middle_reaches_end_witness :
    ∃ scanner1 lexer1,
      scan ⟨codes "EOF", []⟩ (lexerAt (codes "abc\ndef") CONCAT) (only [HEREDOC_MIDDLE])
        = some (true, scanner1, lexer1) ∧
      lexer1.result_symbol = HEREDOC_END ∧ scanner1.heredoc_delimiter = [] :=
  scan_heredoc_middle_reaches_end ⟨codes "EOF", []⟩ (lexerAt (codes "abc\ndef") CONCAT)
    (only [HEREDOC_MIDDLE]) (by decide) (by decide) (by decide) (by decide) (by decide)

/-- C5, counterexample: for the delimiter `EOF` the first scan of
`EOF\nline1\nline2\nEOF\n` with heredoc-begin requested does not yield a
heredoc-begin token covering `EOF\n`: it succeeds once, with kind
simple-heredoc, the cursor 19 characters on, before the final newline; and the
following scan with heredoc-middle requested fails. -/
theorem scan_heredoc_without_expansion_is_simple :
    scan Scanner.create (lexerAt (codes "EOF\nline1\nline2\nEOF\n") CONCAT)
        (only [HEREDOC_BEGINNING])
      = some (true, ⟨[], codes "EOF"⟩, ⟨codes "\n", 19, 0, SIMPLE_HEREDOC⟩) ∧
    SIMPLE_HEREDOC ≠ HEREDOC_BEGINNING ∧ 19 ≠ (codes "EOF\n").length ∧
    scan ⟨[], codes "EOF"⟩ ⟨codes "\n", 19, 0, SIMPLE_HEREDOC⟩ (only [HEREDOC_MIDDLE])
      = some (false, ⟨[], codes "EOF"⟩, ⟨codes "\n", 19, 0, SIMPLE_HEREDOC⟩) := by
  decide

/-- C5, amended: for every delimiter word `D` of letters and underscores other than
`line` (every non-empty one in particular), scanning `D\nline1\nline2\nD\n`
from a fresh scanner with heredoc-begin requested (concatenation and
empty-value not requested) succeeds with a single simple-heredoc token
covering `D\nline1\nline2\nD`, the cursor left before the final newline and
the delimiter empty; a following scan, with heredoc-middle requested or not and
none of concatenation, empty-value, heredoc-begin, variable-name,
file-descriptor requested, fails and changes nothing. -/
theorem scan_simple_heredoc_lines (D : List Nat) (p t : Nat) (k : TokenType)
    (valid_symbols next_symbols : TokenType → Bool)
    (hD : ∀ c ∈ D, is_ident c = true) (hline : D ≠ codes "line")
    (hb : valid_symbols HEREDOC_BEGINNING = true)
    (hc : valid_symbols CONCAT = false) (he : valid_symbols EMPTY_VALUE = false)
    (g1 : next_symbols CONCAT = false) (g2 : next_symbols EMPTY_VALUE = false)
    (g3 : next_symbols HEREDOC_BEGINNING = false) (g4 : next_symbols VARIABLE_NAME = false)
    (g5 : next_symbols FILE_DESCRIPTOR = false) :
    scan Scanner.create ⟨D ++ codes "\nline1\nline2\n" ++ D ++ codes "\n", p, t, k⟩ valid_symbols
      = some (true, ⟨[], D⟩,
          ⟨codes "\n", p + (D ++ codes "\nline1\nline2\n" ++ D).length, t, SIMPLE_HEREDOC⟩) ∧
    scan ⟨[], D⟩
        ⟨codes "\n", p + (D ++ codes "\nline1\nline2\n" ++ D).length, t, SIMPLE_HEREDOC⟩
        next_symbols
      = some (false, ⟨[], D⟩,
          ⟨codes "\n", p + (D ++ codes "\nline1\nline2\n" ++ D).length, t, SIMPLE_HEREDOC⟩) := by
  refine ⟨?_, scan_no_open_heredoc _ _ _ rfl g1 g2 g3 g4 g5⟩
  have h1 : codes "\nline1\nline2\n"
      = [10, 108, 105, 110, 101, 49, 10, 108, 105, 110, 101, 50, 10] := by decide
  have h2 : codes "\n" = [10] := by decide
  have h3 : codes "line" = [108, 105, 110, 101] := by decide
  have hline2 : ¬ [108, 105, 110, 101] = D := fun h => hline (by rw [h3, h])
  have hin : D ++ codes "\nline1\nline2\n" ++ D ++ codes "\n"
      = D ++ ch_newline :: ([108, 105, 110, 101] ++
          ([49, 10, 108, 105, 110, 101, 50] ++ ch_newline :: (D ++ [10]))) := by
    rw [h1, h2]; simp [ch_newline]
  have hnl : is_ident ([10].headD 0) = false := by decide
  have hrun1 := takeWhile_append_of_all is_ident D
    (ch_newline :: ([108, 105, 110, 101] ++
      ([49, 10, 108, 105, 110, 101, 50] ++ ch_newline :: (D ++ [10])))) hD
    (show is_ident ch_newline = false by decide)
  have hrun2 := takeWhile_append_of_all is_ident [108, 105, 110, 101]
    ([49, 10, 108, 105, 110, 101, 50] ++ ch_newline :: (D ++ [10])) (by decide)
    (by simp [is_ident, iswalpha, ch_underscore])
  have hbeq : ([108, 105, 110, 101] == D) = false := by simpa using hline2
  rw [hin, h1, h2]
  simp only [scan, hc, he, hb, Scanner.create, List.isEmpty_nil, Bool.not_true, Bool.and_false,
    Bool.false_and, Bool.false_eq_true, if_false, if_true]
  rw [heredoc_beginning_loop_eq _ _ _ (by exact Nat.lt_succ_self _)]
  simp only [hrun1.1, hrun1.2, List.nil_append, lookahead_cons, advance_cons, bne_self_eq_false,
    Bool.false_eq_true, if_false]
  rw [scan_heredoc_end_identifier_eq _ _ _
    (by simp only [List.length_append, List.length_cons]; omega)]
  simp only [hrun2.1, hrun2.2, hbeq, scan_heredoc_content]
  rw [scan_heredoc_content_loop_terminator _ D _ [49, 10, 108, 105, 110, 101, 50] [10] _ _ _ _ _ _
    (by decide) (by simp [has_terminator, List.takeWhile_cons, is_ident, iswalpha, ch_underscore,
      ch_newline, hline2]) hD hnl
    (by simp only [List.length_append, List.length_cons]; omega)]
  simp only [List.length_append, List.length_cons, List.length_nil, Option.some.injEq,
    Prod.mk.injEq, TSLexer.mk.injEq, true_and, and_true]
  omega

/-- C5, witness: the amended statement for the delimiter `EOF`. -/
theorem scan_simple_heredoc_lines_witness :
    scan Scanner.create
        ⟨codes "EOF" ++ codes "\nline1\nline2\n" ++ codes "EOF" ++ codes "\n", 0, 0, CONCAT⟩
        (only [HEREDOC_BEGINNING])
      = some (true, ⟨[], codes "EOF"⟩,
          ⟨codes "\n", 0 + (codes "EOF" ++ codes "\nline1\nline2\n" ++ codes "EOF").length, 0,
            SIMPLE_HEREDOC⟩) ∧
    scan ⟨[], codes "EOF"⟩
        ⟨codes "\n", 0 + (codes "EOF" ++ codes "\nline1\nline2\n" ++ codes "EOF").length, 0,
          SIMPLE_HEREDOC⟩
        (only [HEREDOC_MIDDLE, HEREDOC_END])
      = some (false, ⟨[], codes "EOF"⟩,
          ⟨codes "\n", 0 + (codes "EOF" ++ codes "\nline1\nline2\n" ++ codes "EOF").length, 0,
            SIMPLE_HEREDOC⟩) :=
  scan_simple_heredoc_lines (codes "EOF") 0 0 CONCAT (only [HEREDOC_BEGINNING])
    (only [HEREDOC_MIDDLE, HEREDOC_END])
    (by decide) (by decide) (by decide) (by decide) (by decide)
    (by decide) (by decide) (by decide) (by decide) (by decide)

/-- C10, counterexample: with the delimiter `EOF`, the body line `EOF1` ends the
heredoc: content scanning of `x\nEOF1\n` succeeds with the end kind and stops
right after `EOF`, before the digit, which is neither a newline nor the end of
input. -/
theorem heredoc_line_with_digit_ends :
    scan_heredoc_content ((codes "x\nEOF1\n").length + 1) ⟨codes "EOF", []⟩
        (lexerAt (codes "x\nEOF1\n") CONCAT) HEREDOC_MIDDLE HEREDOC_END
      = some (true, ⟨[], codes "EOF"⟩, ⟨codes "1\n", 5, 0, HEREDOC_END⟩) ∧
    (⟨codes "1\n", 5, 0, HEREDOC_END⟩ : TSLexer).lookahead ≠ ch_newline ∧
    (⟨codes "1\n", 5, 0, HEREDOC_END⟩ : TSLexer).lookahead ≠ ch_nul := by
  decide

/-- C10, amended: when heredoc content scanning emits the end kind, either the
cursor stands at the end of input (NUL), or the text it read last is a newline
followed by exactly the delimiter `D` and the next character is neither a
letter nor an underscore. Conversely, after a body without NUL, `$` or earlier
terminator line, a line that starts with `D` (letters and underscores)
followed by any character that is neither a letter nor an underscore, be it a
digit, a blank, other text, a newline or the end of input, does end the
heredoc: under any fuel above the length of the text the scan succeeds with
the end kind, the cursor right after `D`, the delimiter cleared. -/
theorem heredoc_end_follows_delimiter_run (fuel : Nat) (scanner : Scanner)
    (middle_type end_type : TokenType) (hme : middle_type ≠ end_type) :
    (∀ (lexer : TSLexer) (b : Bool) (scanner1 : Scanner) (lexer1 : TSLexer),
        scan_heredoc_content fuel scanner lexer middle_type end_type
          = some (b, scanner1, lexer1) →
        lexer1.result_symbol = end_type →
        lexer1.lookahead = ch_nul ∨
          ∃ pre,
            lexer.input = pre ++ ch_newline :: (scanner.heredoc_delimiter ++ lexer1.input) ∧
            is_ident lexer1.lookahead = false) ∧
      (∀ (body tail : List Nat) (p t : Nat) (k : TokenType),
        (∀ c ∈ body, c ≠ ch_nul ∧ c ≠ ch_dollar) →
        has_terminator scanner.heredoc_delimiter body = false →
        (∀ c ∈ scanner.heredoc_delimiter, is_ident c = true) →
        is_ident (tail.headD 0) = false →
        (body ++ ch_newline :: (scanner.heredoc_delimiter ++ tail)).length < fuel →
        scan_heredoc_content fuel scanner
            ⟨body ++ ch_newline :: (scanner.heredoc_delimiter ++ tail), p, t, k⟩
            middle_type end_type
          = some (true, ⟨[], scanner.heredoc_delimiter⟩,
              ⟨tail, p + body.length + 1 + scanner.heredoc_delimiter.length, t,
                end_type⟩)) := by
  constructor
  · intro lexer b scanner1 lexer1 h hk
    exact scan_heredoc_content_loop_end_cause fuel scanner lexer middle_type end_type false b
      scanner1 lexer1 hme h hk
  · intro body tail p t k hb hterm hD htail hfuel
    obtain ⟨D, word⟩ := scanner
    exact scan_heredoc_content_loop_terminator fuel D word body tail p t k middle_type
      end_type false hb hterm hD htail hfuel

/-- C10, witness: the delimiter `EOF` and the text `x\nEOF1\n`, whose second line
is `EOF` followed by a digit: the scan ends the heredoc right after `EOF`, and
what it read last is the newline and `EOF`. -/
theorem heredoc_end_follows_delimiter_run_witness :
    ((⟨codes "1\n", 5, 0, HEREDOC_END⟩ : TSLexer).lookahead = ch_nul ∨
      ∃ pre, (lexerAt (codes "x\nEOF1\n") CONCAT).input
          = pre ++ ch_newline ::
            ((⟨codes "EOF", []⟩ : Scanner).heredoc_delimiter
              ++ (⟨codes "1\n", 5, 0, HEREDOC_END⟩ : TSLexer).input) ∧
        is_ident (⟨codes "1\n", 5, 0, HEREDOC_END⟩ : TSLexer).lookahead = false) ∧
      scan_heredoc_content 8 ⟨codes "EOF", []⟩
          ⟨codes "x" ++ ch_newline ::
            ((⟨codes "EOF", []⟩ : Scanner).heredoc_delimiter ++ codes "1\n"), 0, 0, CONCAT⟩
          HEREDOC_MIDDLE HEREDOC_END
        = some (true, ⟨[], (⟨codes "EOF", []⟩ : Scanner).heredoc_delimiter⟩,
            ⟨codes "1\n",
              0 + (codes "x").length + 1 + (⟨codes "EOF", []⟩ : Scanner).heredoc_delimiter.length,
              0, HEREDOC_END⟩) :=
  ⟨(heredoc_end_follows_delimiter_run 8 ⟨codes "EOF", []⟩ HEREDOC_MIDDLE HEREDOC_END
      (by decide)).1 (lexerAt (codes "x\nEOF1\n") CONCAT) true ⟨[], codes "EOF"⟩
      ⟨codes "1\n", 5, 0, HEREDOC_END⟩ (by decide) rfl,
   (heredoc_end_follows_delimiter_run 8 ⟨codes "EOF", []⟩ HEREDOC_MIDDLE HEREDOC_END
      (by decide)).2 (codes "x") (codes "1\n") 0 0 CONCAT
      (by decide) (by decide) (by decide) (by decide) (by decide)⟩

/-- C11: two scanners that differ only in the stored delimiter, scanning the same
input with heredoc-begin requested and none of concatenation, empty-value,
heredoc-middle requested, return the same result: the same success or
failure, token kind, cursor and final scanner state. -/
theorem scan_heredoc_begin_ignores_stale_delimiter (stale1 stale2 word : List Nat)
    (lexer : TSLexer) (valid_symbols : TokenType → Bool)
    (hb : valid_symbols HEREDOC_BEGINNING = true)
    (h1 : valid_symbols CONCAT = false) (h2 : valid_symbols EMPTY_VALUE = false)
    (h3 : valid_symbols HEREDOC_MIDDLE = false) :
    scan ⟨stale1, word⟩ lexer valid_symbols = scan ⟨stale2, word⟩ lexer valid_symbols := by
  simp only [scan, hb, h1, h2, h3, Bool.false_and, Bool.false_eq_true, if_false, if_true]

/-- C11, witness: the stale delimiter `OLD` against none, on `EOF\nab $x`, where
both calls emit heredoc-begin with the delimiter `EOF`. -/
theorem scan_heredoc_begin_ignores_stale_delimiter_witness :
    scan ⟨codes "OLD", []⟩ (lexerAt (codes "EOF\nab $x") CONCAT) (only [HEREDOC_BEGINNING])
        = some (true, ⟨codes "EOF", codes "ab"⟩, ⟨codes "$x", 7, 0, HEREDOC_BEGINNING⟩) ∧
      scan ⟨codes "OLD", []⟩ (lexerAt (codes "EOF\nab $x") CONCAT) (only [HEREDOC_BEGINNING])
        = scan ⟨[], []⟩ (lexerAt (codes "EOF\nab $x") CONCAT) (only [HEREDOC_BEGINNING]) :=
  ⟨by decide,
   scan_heredoc_begin_ignores_stale_delimiter (codes "OLD") [] []
     (lexerAt (codes "EOF\nab $x") CONCAT) (only [HEREDOC_BEGINNING])
     (by decide) (by decide) (by decide) (by decide)⟩

/-- C12, counterexample: the first call on a fresh scanner, on `\nabc $` with
heredoc-begin requested, succeeds with kind heredoc-begin and leaves the
delimiter empty. -/
theorem scan_heredoc_begin_with_empty_delimiter :
    scan Scanner.create (lexerAt (codes "\nabc $") CONCAT) (only [HEREDOC_BEGINNING])
        = some (true, ⟨[], codes "abc"⟩, ⟨codes "$", 5, 0, HEREDOC_BEGINNING⟩) ∧
      (⟨[], codes "abc"⟩ : Scanner).heredoc_delimiter = [] := by
  decide

/-- C12, amended: for every scanner state, hence after every call of a sequence
that starts from a fresh scanner: a call that succeeds with kind
heredoc-middle leaves the delimiter as it was and non-empty; a call that
succeeds with kind heredoc-begin leaves as delimiter the maximal run of
letters and underscores at the cursor where the call started, so a non-empty
one exactly when that input starts with a letter or an underscore. -/
theorem scan_open_heredoc_delimiter (scanner : Scanner) (lexer : TSLexer)
    (valid_symbols : TokenType → Bool) (scanner1 : Scanner) (lexer1 : TSLexer)
    (h : scan scanner lexer valid_symbols = some (true, scanner1, lexer1)) :
    (lexer1.result_symbol = HEREDOC_MIDDLE →
        scanner1.heredoc_delimiter = scanner.heredoc_delimiter ∧
          scanner1.heredoc_delimiter ≠ []) ∧
      (lexer1.result_symbol = HEREDOC_BEGINNING →
        scanner1.heredoc_delimiter = lexer.input.takeWhile is_ident) := by
  rcases scan_outcome _ _ _ _ _ _ h with
    ⟨-, -, -, hl⟩ | ⟨-, -, -, hl⟩ | ⟨-, hne, hloop⟩ | ⟨-, -, hcase⟩ | ⟨-, -, -, hcase⟩
  · have hk : lexer1.result_symbol = CONCAT := by rw [hl]
    rw [hk]
    exact ⟨fun hk => absurd hk (by decide), fun hk => absurd hk (by decide)⟩
  · have hk : lexer1.result_symbol = EMPTY_VALUE := by rw [hl]
    rw [hk]
    exact ⟨fun hk => absurd hk (by decide), fun hk => absurd hk (by decide)⟩
  · obtain ⟨-, -, ⟨-, -, hk⟩ | ⟨hd, hk, -, -⟩⟩ :=
      scan_heredoc_content_loop_shape _ _ _ _ _ _ _ _ _ hloop
    · rw [hk]
      exact ⟨fun hk => absurd hk (by decide), fun hk => absurd hk (by decide)⟩
    · rw [hk]
      exact ⟨fun _ => ⟨hd, by rw [hd]; exact hne⟩, fun hk => absurd hk (by decide)⟩
  · rcases hcase with ⟨hb, -⟩ | ⟨-, -, -, hk⟩ | ⟨s2, l2, hs2, -, hloop⟩
    · exact absurd hb (by decide)
    · rw [hk]
      exact ⟨fun hk => absurd hk (by decide), fun hk => absurd hk (by decide)⟩
    · obtain ⟨-, -, ⟨-, -, hk⟩ | ⟨hd, hk, -, -⟩⟩ :=
        scan_heredoc_content_loop_shape _ _ _ _ _ _ _ _ _ hloop
      · rw [hk]
        exact ⟨fun hk => absurd hk (by decide), fun hk => absurd hk (by decide)⟩
      · rw [hk]
        exact ⟨fun hk => absurd hk (by decide), fun _ => by rw [hd, hs2]⟩
  · rcases hcase with ⟨hb, -⟩ | ⟨-, hk, -⟩ | ⟨-, hk, -⟩
    · exact absurd hb (by decide)
    · rw [hk]
      exact ⟨fun hk => absurd hk (by decide), fun hk => absurd hk (by decide)⟩
    · rw [hk]
      exact ⟨fun hk => absurd hk (by decide), fun hk => absurd hk (by decide)⟩

/-- C12, witness: a fresh scanner on `EOF\nab $x` with heredoc-begin requested
emits heredoc-begin and stores the run `EOF` read at the cursor. -/
theorem scan_open_heredoc_delimiter_witness :
    scan Scanner.create (lexerAt (codes "EOF\nab $x") CONCAT) (only [HEREDOC_BEGINNING])
        = some (true, ⟨codes "EOF", codes "ab"⟩, ⟨codes "$x", 7, 0, HEREDOC_BEGINNING⟩) ∧
      (⟨codes "EOF", codes "ab"⟩ : Scanner).heredoc_delimiter
        = (lexerAt (codes "EOF\nab $x") CONCAT).input.takeWhile is_ident :=
  ⟨by decide,
   (scan_open_heredoc_delimiter Scanner.create (lexerAt (codes "EOF\nab $x") CONCAT)
      (only [HEREDOC_BEGINNING]) ⟨codes "EOF", codes "ab"⟩
      ⟨codes "$x", 7, 0, HEREDOC_BEGINNING⟩ (by decide)).2 rfl⟩

/-- C14: for every delimiter `D` of letters and underscores and every body `b`
that holds no `$`, no NUL and no newline followed by a maximal run of letters
and underscores equal to `D`, heredoc content scanning started at the
beginning of `b`, newline, `D`, newline with the delimiter `D` returns under
any fuel above the length of the text: it succeeds with the end kind, the
cursor right after `D` and before the final newline, the delimiter empty. -/
theorem heredoc_content_finds_terminator (fuel : Nat) (D word b : List Nat) (p t : Nat)
    (k middle_type end_type : TokenType)
    (hb : ∀ c ∈ b, c ≠ ch_nul ∧ c ≠ ch_dollar)
    (hterm : has_terminator D b = false)
    (hD : ∀ c ∈ D, is_ident c = true)
    (hfuel : (b ++ ch_newline :: (D ++ [ch_newline])).length < fuel) :
    scan_heredoc_content fuel ⟨D, word⟩ ⟨b ++ ch_newline :: (D ++ [ch_newline]), p, t, k⟩
        middle_type end_type
      = some (true, ⟨[], D⟩, ⟨[ch_newline], p + b.length + 1 + D.length, t, end_type⟩) :=
  scan_heredoc_content_loop_terminator fuel D word b [ch_newline] p t k middle_type end_type
    false hb hterm hD (by decide) hfuel

/-- C14, witness: the delimiter `EOF` and the body `a b\nEOFx\nc`, whose second
line only starts with the delimiter. -/
theorem heredoc_content_finds_terminator_witness :
    scan_heredoc_content 20 ⟨codes "EOF", []⟩
        ⟨codes "a b\nEOFx\nc" ++ ch_newline :: (codes "EOF" ++ [ch_newline]), 0, 0, CONCAT⟩
        HEREDOC_MIDDLE HEREDOC_END
      = some (true, ⟨[], codes "EOF"⟩,
          ⟨[ch_newline], 0 + (codes "a b\nEOFx\nc").length + 1 + (codes "EOF").length, 0,
            HEREDOC_END⟩) :=
  heredoc_content_finds_terminator 20 (codes "EOF") [] (codes "a b\nEOFx\nc") 0 0 CONCAT
    HEREDOC_MIDDLE HEREDOC_END (by decide) (by decide) (by decide) (by decide)

/-- C15: when heredoc content scanning reaches a `$`, that is on a text `pre`
without NUL, `$` or terminator line followed by a `$`, it returns under any
fuel above the length of the input with the middle kind recorded, the cursor
at the `$`, the delimiter unchanged, and success exactly when `pre` is not
empty; a call that starts at the `$` fails. -/
theorem heredoc_content_stops_at_dollar (fuel : Nat) (D word pre rest : List Nat) (p t : Nat)
    (k middle_type end_type : TokenType)
    (hb : ∀ c ∈ pre, c ≠ ch_nul ∧ c ≠ ch_dollar)
    (hterm : has_terminator D pre = false)
    (hfuel : (pre ++ ch_dollar :: rest).length < fuel) :
    ∃ word1,
      scan_heredoc_content fuel ⟨D, word⟩ ⟨pre ++ ch_dollar :: rest, p, t, k⟩
          middle_type end_type =
        some (decide (pre ≠ []), ⟨D, word1⟩,
          ⟨ch_dollar :: rest, p + pre.length, t, middle_type⟩) := by
  obtain ⟨word1, hw⟩ := scan_heredoc_content_loop_dollar fuel D word pre rest p t k
    middle_type end_type false hb hterm hfuel
  refine ⟨word1, ?_⟩
  rw [scan_heredoc_content, hw]
  cases pre <;> simp

/-- C15, witness: the delimiter `EOF` on `ab\ncd$x`, and on `$x` where the call
starts at the `$`. -/
theorem heredoc_content_stops_at_dollar_witness :
    (∃ word1,
      scan_heredoc_content 9 ⟨codes "EOF", []⟩
          ⟨codes "ab\ncd" ++ ch_dollar :: codes "x", 0, 0, CONCAT⟩ HEREDOC_MIDDLE HEREDOC_END =
        some (decide (codes "ab\ncd" ≠ []), ⟨codes "EOF", word1⟩,
          ⟨ch_dollar :: codes "x", 0 + (codes "ab\ncd").length, 0, HEREDOC_MIDDLE⟩)) ∧
    (∃ word1,
      scan_heredoc_content 3 ⟨codes "EOF", []⟩
          ⟨[] ++ ch_dollar :: codes "x", 0, 0, CONCAT⟩ HEREDOC_MIDDLE HEREDOC_END =
        some (decide (([] : List Nat) ≠ []), ⟨codes "EOF", word1⟩,
          ⟨ch_dollar :: codes "x", 0 + ([] : List Nat).length, 0, HEREDOC_MIDDLE⟩)) :=
  ⟨heredoc_content_stops_at_dollar 9 (codes "EOF") [] (codes "ab\ncd") (codes "x") 0 0 CONCAT
      HEREDOC_MIDDLE HEREDOC_END (by decide) (by decide) (by decide),
   heredoc_content_stops_at_dollar 3 (codes "EOF") [] [] (codes "x") 0 0 CONCAT
      HEREDOC_MIDDLE HEREDOC_END (by decide) (by decide) (by decide)⟩

/-- C16, counterexample: with the stale delimiter `OLD` and heredoc-begin
requested, scan on `EOF x` fails, and the stored delimiter has become `EOF`. -/
theorem scan_failure_changes_delimiter :
    scan ⟨codes "OLD", []⟩ (lexerAt (codes "EOF x") CONCAT) (only [HEREDOC_BEGINNING])
        = some (false, ⟨codes "EOF", []⟩, ⟨codes " x", 3, 0, CONCAT⟩) ∧
      (⟨codes "EOF", []⟩ : Scanner).heredoc_delimiter
        ≠ (⟨codes "OLD", []⟩ : Scanner).heredoc_delimiter := by
  decide

/-- C16, amended: every call that succeeds with kind concatenation, empty-value,
heredoc-middle, file-descriptor or variable-name leaves the delimiter as it
was, and so does every failing call that does not enter the heredoc-begin
branch, that is when heredoc-begin is not requested or heredoc-middle is
requested with a delimiter stored. Failing calls that enter the heredoc-begin
branch are left out: that branch rewrites the delimiter before its outcome is
known. -/
theorem scan_delimiter_frame (scanner : Scanner) (lexer : TSLexer)
    (valid_symbols : TokenType → Bool) (b : Bool) (scanner1 : Scanner) (lexer1 : TSLexer)
    (h : scan scanner lexer valid_symbols = some (b, scanner1, lexer1)) :
    (b = true →
        (lexer1.result_symbol = CONCAT ∨ lexer1.result_symbol = EMPTY_VALUE ∨
          lexer1.result_symbol = HEREDOC_MIDDLE ∨ lexer1.result_symbol = FILE_DESCRIPTOR ∨
          lexer1.result_symbol = VARIABLE_NAME) →
        scanner1.heredoc_delimiter = scanner.heredoc_delimiter) ∧
      (b = false →
        (valid_symbols HEREDOC_BEGINNING = false ∨
          (valid_symbols HEREDOC_MIDDLE = true ∧ scanner.heredoc_delimiter ≠ [])) →
        scanner1.heredoc_delimiter = scanner.heredoc_delimiter) := by
  have hkinds : ∀ kind : TokenType, (kind = SIMPLE_HEREDOC ∨ kind = HEREDOC_BEGINNING ∨
      kind = HEREDOC_END) → ¬ (kind = CONCAT ∨ kind = EMPTY_VALUE ∨ kind = HEREDOC_MIDDLE ∨
        kind = FILE_DESCRIPTOR ∨ kind = VARIABLE_NAME) := by decide
  rcases scan_outcome _ _ _ _ _ _ h with
    ⟨-, -, hs, -⟩ | ⟨-, -, hs, -⟩ | ⟨hv, hne, hloop⟩ | ⟨hv, hmid, hcase⟩ | ⟨-, hs, -⟩
  · rw [hs]; exact ⟨fun _ _ => rfl, fun _ _ => rfl⟩
  · rw [hs]; exact ⟨fun _ _ => rfl, fun _ _ => rfl⟩
  · obtain ⟨-, -, ⟨hb, -, hk⟩ | ⟨hd, -⟩⟩ :=
      scan_heredoc_content_loop_shape _ _ _ _ _ _ _ _ _ hloop
    · exact ⟨fun _ hkind => absurd hkind (hkinds _ (Or.inr (Or.inr hk))),
        fun hf _ => absurd (hb.symm.trans hf) (by decide)⟩
    · exact ⟨fun _ _ => hd, fun _ _ => hd⟩
  · have hnot : ¬ (valid_symbols HEREDOC_BEGINNING = false ∨
        (valid_symbols HEREDOC_MIDDLE = true ∧ scanner.heredoc_delimiter ≠ [])) := by
      rintro (h1 | ⟨h1, h2⟩)
      · rw [hv] at h1; exact absurd h1 (by decide)
      · rcases hmid with h3 | h3
        · rw [h1] at h3; exact absurd h3 (by decide)
        · exact h2 h3
    refine ⟨fun hb hkind => ?_, fun _ hreq => absurd hreq hnot⟩
    rcases hcase with ⟨hf, -⟩ | ⟨-, -, -, hk⟩ | ⟨s2, l2, -, -, hloop⟩
    · exact absurd (hb.symm.trans hf) (by decide)
    · exact absurd hkind (hkinds _ (Or.inl hk))
    · obtain ⟨-, -, ⟨-, -, hk⟩ | ⟨-, hk, -⟩⟩ :=
        scan_heredoc_content_loop_shape _ _ _ _ _ _ _ _ _ hloop
      · exact absurd hkind (hkinds _ (Or.inl hk))
      · exact absurd hkind (hkinds _ (Or.inr (Or.inl hk)))
  · rw [hs]; exact ⟨fun _ _ => rfl, fun _ _ => rfl⟩

/-- C16, witness: with the delimiter `EOF` stored and heredoc-middle requested,
scan on `ab$x` emits heredoc-middle and the delimiter is still `EOF`. -/
theorem scan_delimiter_frame_witness :
    scan ⟨codes "EOF", []⟩ (lexerAt (codes "ab$x") CONCAT) (only [HEREDOC_MIDDLE])
        = some (true, ⟨codes "EOF", []⟩, ⟨codes "$x", 2, 0, HEREDOC_MIDDLE⟩) ∧
      (⟨codes "EOF", []⟩ : Scanner).heredoc_delimiter
        = (⟨codes "EOF", []⟩ : Scanner).heredoc_delimiter :=
  ⟨by decide,
   (scan_delimiter_frame ⟨codes "EOF", []⟩ (lexerAt (codes "ab$x") CONCAT)
      (only [HEREDOC_MIDDLE]) true ⟨codes "EOF", []⟩ ⟨codes "$x", 2, 0, HEREDOC_MIDDLE⟩
      (by decide)).1 rfl (Or.inr (Or.inr (Or.inl rfl)))⟩

/-- C17: under the preconditions of the word classification, scan returns with
the cursor right after the word `w` and before the character that follows
it, whether it succeeded or failed; the token start is not moved. -/
theorem scan_word_cursor (scanner : Scanner) (w tail : List Nat) (p t : Nat)
    (k : TokenType) (valid_symbols : TokenType → Bool)
    (hw : w ≠ []) (hall : ∀ x ∈ w, is_word_char x = true)
    (hc : is_word_char (tail.headD 0) = false)
    (hreq : valid_symbols FILE_DESCRIPTOR = true ∨ valid_symbols VARIABLE_NAME = true)
    (h1 : valid_symbols CONCAT = false) (h2 : valid_symbols EMPTY_VALUE = false)
    (h3 : valid_symbols HEREDOC_MIDDLE = false) (h4 : valid_symbols HEREDOC_BEGINNING = false) :
    ∃ b kind, scan scanner ⟨w ++ tail, p, t, k⟩ valid_symbols
      = some (b, scanner, ⟨tail, p + w.length, t, kind⟩) := by
  rw [scan_word_eq scanner w tail p t k valid_symbols hw hall hc hreq h1 h2 h3 h4]
  split
  · exact ⟨_, _, rfl⟩
  · split
    · exact ⟨_, _, rfl⟩
    · exact ⟨_, _, rfl⟩

/-- C17, witness: the word `abc` before a blank with variable-name requested: scan
fails with the whole word consumed; and the word `42` before `>`. -/
theorem scan_word_cursor_witness :
    scan Scanner.create (lexerAt (codes "abc x") NEWLINE) (only [VARIABLE_NAME])
        = some (false, Scanner.create, ⟨codes " x", 3, 0, NEWLINE⟩) ∧
      scan Scanner.create (lexerAt (codes "42>") NEWLINE) (only [FILE_DESCRIPTOR])
        = some (true, Scanner.create, ⟨codes ">", 2, 0, FILE_DESCRIPTOR⟩) ∧
      ∃ b kind, scan Scanner.create ⟨codes "abc" ++ codes " x", 0, 0, NEWLINE⟩
          (only [VARIABLE_NAME])
        = some (b, Scanner.create, ⟨codes " x", 0 + (codes "abc").length, 0, kind⟩) :=
  ⟨by decide, by decide,
   scan_word_cursor Scanner.create (codes "abc") (codes " x") 0 0 NEWLINE
     (only [VARIABLE_NAME]) (by decide) (by decide) (by decide) (Or.inr (by decide))
     (by decide) (by decide) (by decide) (by decide)⟩

/-- C18: in the word branch (file-descriptor and/or variable-name requested, none
of concatenation, empty-value, heredoc-middle, heredoc-begin), a leading run
`ws` of spaces, tabs and, when newline is not requested, newlines is skipped:
the result is that of scanning the text after the run, with the token
starting there when the run is not empty; and when newline is requested, a
newline after `ws` is not skipped: scan fails with the cursor at that
newline. -/
theorem scan_word_skips_blanks (scanner : Scanner) (ws rest : List Nat) (p t : Nat)
    (k : TokenType) (valid_symbols : TokenType → Bool)
    (hreq : valid_symbols FILE_DESCRIPTOR = true ∨ valid_symbols VARIABLE_NAME = true)
    (h1 : valid_symbols CONCAT = false) (h2 : valid_symbols EMPTY_VALUE = false)
    (h3 : valid_symbols HEREDOC_MIDDLE = false) (h4 : valid_symbols HEREDOC_BEGINNING = false)
    (hws : ∀ c ∈ ws, c = ch_space ∨ c = ch_tab ∨
      (c = ch_newline ∧ valid_symbols NEWLINE = false)) :
    scan scanner ⟨ws ++ rest, p, t, k⟩ valid_symbols
        = scan scanner
            ⟨rest, p + ws.length, if ws.isEmpty then t else p + ws.length, k⟩ valid_symbols ∧
      (valid_symbols NEWLINE = true →
        scan scanner ⟨ws ++ ch_newline :: rest, p, t, k⟩ valid_symbols
          = some (false, scanner,
              ⟨ch_newline :: rest, p + ws.length,
                if ws.isEmpty then t else p + ws.length, k⟩)) := by
  have hskip : ∀ tail : List Nat,
      skip_loop ((TSLexer.mk (ws ++ tail) p t k).input.length + 1) ⟨ws ++ tail, p, t, k⟩
          valid_symbols
        = skip_loop
            ((TSLexer.mk tail (p + ws.length)
              (if ws.isEmpty then t else p + ws.length) k).input.length + 1)
            ⟨tail, p + ws.length, if ws.isEmpty then t else p + ws.length, k⟩
            valid_symbols := by
    intro tail
    have hfuel : (ws ++ tail).length + 1 = (tail.length + 1) + ws.length := by
      rw [List.length_append]; omega
    show skip_loop ((ws ++ tail).length + 1) _ _ = skip_loop (tail.length + 1) _ _
    rw [hfuel, skip_loop_blanks _ ws tail p t k valid_symbols hws]
  constructor
  · exact scan_word_skip_congr scanner _ _ valid_symbols hreq h1 h2 h3 h4
      (by simp only [List.length_append]; omega) (hskip rest)
  · intro hnl
    rw [scan_word_skip_congr scanner _ _ valid_symbols hreq h1 h2 h3 h4
      (by simp only [List.length_append]; omega) (hskip (ch_newline :: rest))]
    have hor : (valid_symbols VARIABLE_NAME || valid_symbols FILE_DESCRIPTOR) = true := by
      rcases hreq with h | h <;> simp [h]
    simp only [scan, h1, h2, h3, h4, hor, Bool.false_and, Bool.false_eq_true, if_false, if_true]
    rw [skip_loop_break _ _ _ (by simp [TSLexer.lookahead, ch_newline, ch_space])
      (by simp [TSLexer.lookahead, ch_newline, ch_tab]) (Or.inr hnl)
      (by simp [TSLexer.lookahead, ch_newline, ch_backslash])]
    simp [TSLexer.lookahead, ch_newline, iswdigit, iswalpha, ch_underscore]

/-- C18, witness: newline not requested, ` \n\t42>` scans like `42>` and gives a
file-descriptor token that starts at the word; newline requested, ` \t\n42>`
fails with the cursor at the newline. -/
theorem scan_word_skips_blanks_witness :
    scan Scanner.create ⟨codes " \n\t" ++ codes "42>", 0, 0, CONCAT⟩ (only [FILE_DESCRIPTOR])
        = some (true, Scanner.create, ⟨codes ">", 5, 3, FILE_DESCRIPTOR⟩) ∧
      scan Scanner.create ⟨codes " \n\t" ++ codes "42>", 0, 0, CONCAT⟩ (only [FILE_DESCRIPTOR])
        = scan Scanner.create
            ⟨codes "42>", 0 + (codes " \n\t").length,
              if (codes " \n\t").isEmpty then 0 else 0 + (codes " \n\t").length, CONCAT⟩
            (only [FILE_DESCRIPTOR]) ∧
      scan Scanner.create ⟨codes " \t" ++ ch_newline :: codes "42>", 0, 0, CONCAT⟩
          (only [FILE_DESCRIPTOR, NEWLINE])
        = some (false, Scanner.create,
            ⟨ch_newline :: codes "42>", 0 + (codes " \t").length,
              if (codes " \t").isEmpty then 0 else 0 + (codes " \t").length, CONCAT⟩) :=
  ⟨by decide,
   (scan_word_skips_blanks Scanner.create (codes " \n\t") (codes "42>") 0 0 CONCAT
      (only [FILE_DESCRIPTOR]) (Or.inl (by decide)) (by decide) (by decide) (by decide)
      (by decide) (by decide)).1,
   (scan_word_skips_blanks Scanner.create (codes " \t") (codes "42>") 0 0 CONCAT
      (only [FILE_DESCRIPTOR, NEWLINE]) (Or.inl (by decide)) (by decide) (by decide)
      (by decide) (by decide) (by decide)).2 (by decide)⟩

/-- C19: in the word branch (file-descriptor and/or variable-name requested, none
of concatenation, empty-value, heredoc-middle, heredoc-begin), a backslash
followed by a newline is skipped: the result is that of scanning the text
after the pair with the token starting there; a backslash followed by any
other character or by the end of input makes scan fail right after the
backslash, the result symbol untouched. -/
theorem scan_word_line_continuation (scanner : Scanner) (p t : Nat) (k : TokenType)
    (valid_symbols : TokenType → Bool)
    (hreq : valid_symbols FILE_DESCRIPTOR = true ∨ valid_symbols VARIABLE_NAME = true)
    (h1 : valid_symbols CONCAT = false) (h2 : valid_symbols EMPTY_VALUE = false)
    (h3 : valid_symbols HEREDOC_MIDDLE = false) (h4 : valid_symbols HEREDOC_BEGINNING = false) :
    (∀ rest : List Nat,
        scan scanner ⟨ch_backslash :: ch_newline :: rest, p, t, k⟩ valid_symbols
          = scan scanner ⟨rest, p + 2, p + 2, k⟩ valid_symbols) ∧
      (∀ tail : List Nat, tail.headD 0 ≠ ch_newline →
        scan scanner ⟨ch_backslash :: tail, p, t, k⟩ valid_symbols
          = some (false, scanner, ⟨tail, p + 1, p + 1, k⟩)) := by
  constructor
  · intro rest
    apply scan_word_skip_congr scanner _ _ valid_symbols hreq h1 h2 h3 h4
    · simp only [List.length_cons]; omega
    · show skip_loop ((rest.length + 1 + 1) + 1) _ _ = skip_loop (rest.length + 1) _ _
      rw [skip_loop_continuation]
      exact skip_loop_fuel _ _ _ _ (by simp) (by simp)
  · intro tail htail
    have hor : (valid_symbols VARIABLE_NAME || valid_symbols FILE_DESCRIPTOR) = true := by
      rcases hreq with h | h <;> simp [h]
    simp only [scan, h1, h2, h3, h4, hor, Bool.false_and, Bool.false_eq_true, if_false, if_true,
      List.length_cons]
    rw [skip_loop_bad_backslash _ _ _ _ _ _ htail]

/-- C19, witness: a backslash and a newline before `42>` are skipped; a backslash
before `x` and a backslash at the end of input make scan fail. -/
theorem scan_word_line_continuation_witness :
    scan Scanner.create ⟨ch_backslash :: ch_newline :: codes "42>", 0, 0, CONCAT⟩
          (only [FILE_DESCRIPTOR])
        = some (true, Scanner.create, ⟨codes ">", 4, 2, FILE_DESCRIPTOR⟩) ∧
      scan Scanner.create ⟨ch_backslash :: ch_newline :: codes "42>", 0, 0, CONCAT⟩
          (only [FILE_DESCRIPTOR])
        = scan Scanner.create ⟨codes "42>", 0 + 2, 0 + 2, CONCAT⟩ (only [FILE_DESCRIPTOR]) ∧
      scan Scanner.create ⟨ch_backslash :: codes "x", 0, 0, CONCAT⟩ (only [FILE_DESCRIPTOR])
        = some (false, Scanner.create, ⟨codes "x", 0 + 1, 0 + 1, CONCAT⟩) ∧
      scan Scanner.create ⟨ch_backslash :: [], 0, 0, CONCAT⟩ (only [FILE_DESCRIPTOR])
        = some (false, Scanner.create, ⟨[], 0 + 1, 0 + 1, CONCAT⟩) :=
  ⟨by decide,
   (scan_word_line_continuation Scanner.create 0 0 CONCAT (only [FILE_DESCRIPTOR])
      (Or.inl (by decide)) (by decide) (by decide) (by decide) (by decide)).1 (codes "42>"),
   (scan_word_line_continuation Scanner.create 0 0 CONCAT (only [FILE_DESCRIPTOR])
      (Or.inl (by decide)) (by decide) (by decide) (by decide) (by decide)).2 (codes "x")
      (by decide),
   (scan_word_line_continuation Scanner.create 0 0 CONCAT (only [FILE_DESCRIPTOR])
      (Or.inl (by decide)) (by decide) (by decide) (by decide) (by decide)).2 [] (by decide)⟩

/-- C20: for every scanner state, input and valid-symbols set, scan returns, with
success or failure: the fuel of one more than the unread input, one unit per
loop iteration, is never used up, since each iteration that does not return
consumes at least one character. The text the call started on is what it
consumed followed by what is left unread, and the cursor is further by the
length of the consumed text, so it never moves backwards nor past the end. -/
theorem scan_terminates (scanner : Scanner) (lexer : TSLexer)
    (valid_symbols : TokenType → Bool) :
    ∃ b scanner1 lexer1, scan scanner lexer valid_symbols = some (b, scanner1, lexer1) ∧
      ∃ consumed, lexer.input = consumed ++ lexer1.input ∧
        lexer1.position = lexer.position + consumed.length := by
  obtain ⟨⟨b, s1, l1⟩, hr⟩ := scan_total scanner lexer valid_symbols
  refine ⟨b, s1, l1, hr, ?_⟩
  rcases scan_outcome _ _ _ _ _ _ hr with
    ⟨-, -, -, hl⟩ | ⟨-, -, -, hl⟩ | ⟨-, -, hloop⟩ | ⟨-, -, hcase⟩ | ⟨-, -, ha, -⟩
  · rw [hl]; exact ⟨[], by simp⟩
  · rw [hl]; exact ⟨[], by simp⟩
  · exact scan_heredoc_content_loop_advanced _ _ _ _ _ _ _ _ _ hloop
  · rcases hcase with ⟨-, -, ha, -⟩ | ⟨-, -, ha, -⟩ | ⟨s2, l2, -, ha, hloop⟩
    · exact ha
    · exact ha
    · exact advanced_trans ha (scan_heredoc_content_loop_advanced _ _ _ _ _ _ _ _ _ hloop)
  · exact ha

end TreeSitterBash
